import Mathlib

/-!
# PWM spindle driver (`FluidNC/src/Spindles/PWMSpindle.cpp`)

A shallow embedding of `Spindles::PWM`: the runtime record of the object, the
calls it makes on its collaborators (pins, dwell, logging, base-class helpers)
as a trace of events, and the binary32 arithmetic of the soft-start ramp.
-/

namespace Spindles

/-! ## Binary32 arithmetic of the ramp

The ramp computes `(float)(dev_speed - start_duty) / steps` and
`(uint32_t)(duty_delta * i)` in `float`, that is IEEE-754 binary32 with
round-to-nearest, ties-to-even.  Every binary32 value that arises there is
positive and at least `0.01f > 2^-7`, so its unit in the last place is at least
`2^-30`.  A binary32 value `x` is therefore held as the natural number
`x * 2^31`; rounding to 24 significant bits is exact integer arithmetic. -/

/-- The quotient `n / den` rounded to the nearest integer, ties to the even one. -/
def roundHalfEven (n den : Nat) : Nat :=
  let f := n / den
  let r := n % den
  if 2 * r < den then f
  else if den < 2 * r then f + 1
  else if f % 2 = 0 then f else f + 1

/-- Worker of `round24`: doubles the quantum until the quotient has at most 24 bits. -/
def round24Aux : Nat → Nat → Nat → Nat
  | 0, n, den => roundHalfEven n den
  | fuel + 1, n, den =>
    if n / den < 2 ^ 24 then roundHalfEven n den
    else 2 * round24Aux fuel n (2 * den)

/-- The quotient `n / den` rounded to 24 significant bits (the precision of
binary32), ties to even.  A quotient below `2^24` is rounded to an integer. -/
def round24 (n den : Nat) : Nat := round24Aux n n den

/-- Number of fraction bits of the fixed-point representation of binary32 values. -/
def f32Frac : Nat := 31

/-- Conversion `(float)n` of an unsigned integer; the result is integer valued
and is returned as that integer. -/
def f32OfNat (n : Nat) : Nat := round24 n 1

/-- Binary32 quotient `a / (float)steps` of an integer-valued binary32 `a`,
in units of `2^-31`; it is the binary32 quotient when that is at least `2^-7`,
as it is for `steps = 100` and `a ≥ 1`. -/
def f32Div (a steps : Nat) : Nat := round24 (a * 2 ^ f32Frac) (f32OfNat steps)

/-- Binary32 product `x * (float)i` of `x` (in units of `2^-31`) and an
unsigned integer `i`, in units of `2^-31`. -/
def f32Mul (x i : Nat) : Nat := round24 (x * f32OfNat i) 1

/-- Conversion `(uint32_t)x` of a binary32 `x` (in units of `2^-31`): truncation
toward zero.  C++ leaves the conversion of a value of `2^32` or more undefined;
this definition saturates, as float-to-integer conversion instructions
commonly do.  The case needs `dev_speed - start_duty >= 2^32 - 383`. -/
def f32ToU32 (x : Nat) : Nat := min (x / 2 ^ f32Frac) (2 ^ 32 - 1)

/-! ## Data model -/

/-- Commanded rotational mode (`SpindleState`). -/
inductive SpindleState where
  | Disable
  | Cw
  | Ccw
  deriving DecidableEq, Repr

/-- The three hardware lines of the spindle. -/
inductive PinId where
  | output_pin
  | enable_pin
  | direction_pin
  deriving DecidableEq, Repr

/-- Pin attributes set by this driver (`Pin::Attr`). -/
inductive PinAttr where
  | PWM (freq : Nat)
  | Output
  | Input
  deriving DecidableEq, Repr

/-- Calls made on collaborators, in program order. -/
inductive Event where
  /-- `_output_pin.setDuty(duty)`: a hardware duty write. -/
  | setDuty (duty : Nat)
  /-- `pin.setAttr(attr)`. -/
  | setAttr (pin : PinId) (attr : PinAttr)
  /-- `set_direction(cw)`: the direction-line command. -/
  | set_direction (cw : Bool)
  /-- `set_enable(on)`: the enable-line command. -/
  | set_enable (enable : Bool)
  /-- `dwell_ms(ms, DwellMode::SysSuspend)`: suspension of the caller. -/
  | dwell_ms (ms : Nat)
  /-- `spindleDelay(state, speed)`. -/
  | spindleDelay (state : SpindleState) (speed : Nat)
  /-- `log_error` "output pin ... cannot do PWM". -/
  | log_error_cannot_pwm
  /-- `log_error` "output pin not defined". -/
  | log_error_not_defined
  /-- `log_config_error` "spindle output_pin not defined". -/
  | log_config_error_not_defined
  /-- `linearSpeeds(maxSpeed, maxPercent)`. -/
  | linearSpeeds (maxSpeed maxPercent : Nat)
  /-- `setupSpeeds(maxDuty)`. -/
  | setupSpeeds (maxDuty : Nat)
  /-- `init_atc()`. -/
  | init_atc
  /-- `config_message()`. -/
  | config_message
  deriving DecidableEq, Repr

/-- Configuration and collaborators of one spindle object: what the pins report
and the base-class members that `PWMSpindle.cpp` calls but does not define. -/
structure Env where
  /-- `_output_pin.defined()`. -/
  output_defined : Bool
  /-- `_output_pin.capabilities().has(Pin::Capabilities::PWM)`. -/
  output_can_pwm : Bool
  /-- `_direction_pin.defined()`. -/
  direction_defined : Bool
  /-- `_pwm_freq`. -/
  pwm_freq : Nat
  /-- `_output_pin.maxDuty()`. -/
  maxDuty : Nat
  /-- `mapSpeed(state, speed)`, a `uint32_t`. -/
  mapSpeed : SpindleState → Nat → Nat
  /-- `isRateAdjusted()`. -/
  isRateAdjusted : Bool
  /-- `offSpeed()`. -/
  offSpeed : Nat
  /-- The value that the base-class helper `spindleDelay(state, speed)` leaves in
  the base-class member `_current_state`, from its value before the call. -/
  spindleDelayState : SpindleState → SpindleState → Nat → SpindleState

/-- Runtime record of a `PWM` object. -/
structure PWM where
  /-- `is_reversable`. -/
  is_reversable : Bool
  /-- `_current_state`. -/
  current_state : SpindleState
  /-- `_current_pwm_duty`. -/
  current_pwm_duty : Nat
  /-- `_speeds.size()`. -/
  speeds_size : Nat
  deriving DecidableEq, Repr

/-! ## Operations -/

/-- `PWM::set_output(duty)`: writes the duty to the output pin unless it is the
current one. -/
def set_output (duty : Nat) (s : PWM) : PWM × List Event :=
  if duty = s.current_pwm_duty then (s, [])
  else ({ s with current_pwm_duty := duty }, [Event.setDuty duty])

/-- Modelled from the spec: `linearSpeeds`, absent from the sources, "installs
the default linear map (0→0%, 10000→100%)", a map of two breakpoints. -/
def linearSpeedsSize : Nat := 2

/-- `PWM::init()`. -/
def init (env : Env) (s : PWM) : PWM × List Event :=
  let s1 := { s with is_reversable := env.direction_defined }
  let ev1 :=
    if env.output_defined then
      if env.output_can_pwm then [Event.setAttr PinId.output_pin (PinAttr.PWM env.pwm_freq)]
      else [Event.log_error_cannot_pwm]
    else [Event.log_error_not_defined]
  let s2 := { s1 with current_state := SpindleState.Disable, current_pwm_duty := 0 }
  let ev2 := [Event.setAttr PinId.enable_pin PinAttr.Output,
              Event.setAttr PinId.direction_pin PinAttr.Output]
  let (s3, ev3) :=
    if s2.speeds_size = 0 then
      ({ s2 with speeds_size := linearSpeedsSize }, [Event.linearSpeeds 10000 100])
    else (s2, [])
  (s3, ev1 ++ ev2 ++ ev3 ++ [Event.setupSpeeds env.maxDuty, Event.init_atc, Event.config_message])

/-- `PWM::setSpeedfromISR(dev_speed)`; `modal` is `gc_state.modal.spindle`. -/
def setSpeedfromISR (modal : SpindleState) (dev_speed : Nat) (s : PWM) : PWM × List Event :=
  let (s1, ev) := set_output dev_speed s
  (s1, Event.set_enable (decide (modal ≠ SpindleState.Disable)) :: ev)

/-- The duty of ramp step `i`:
`start_duty + (uint32_t)(duty_delta * i)` with
`duty_delta = (float)(dev_speed - start_duty) / steps`. -/
def rampDuty (start_duty dev_speed steps i : Nat) : Nat :=
  let duty_delta := f32Div (f32OfNat (dev_speed - start_duty)) steps
  (start_duty + f32ToU32 (f32Mul duty_delta i)) % 2 ^ 32

/-- The duties that the loop `for (i = 1; i <= steps; i++)` passes to
`set_output`, in order. -/
def rampDuties (start_duty dev_speed steps : Nat) : List Nat :=
  (List.range' 1 steps).map (rampDuty start_duty dev_speed steps)

/-- The loop of the soft start: for each duty, `set_output` and then
`dwell_ms(step_interval, DwellMode::SysSuspend)`. -/
def rampLoop (step_interval : Nat) : List Nat → PWM → PWM × List Event
  | [], s => (s, [])
  | duty :: rest, s =>
    let (s1, ev1) := set_output duty s
    let (s2, ev2) := rampLoop step_interval rest s1
    (s2, ev1 ++ Event.dwell_ms step_interval :: ev2)

/-- The soft-start block of `PWM::setState` (the `if` of lines 70 to 90). -/
def softStart (state : SpindleState) (dev_speed : Nat) (s : PWM) : PWM × List Event :=
  if state ≠ SpindleState.Disable ∧ dev_speed > s.current_pwm_duty then
    let duration := 2000
    let step_interval := 20
    if duration ≥ step_interval then
      let steps := duration / step_interval
      let start_duty := s.current_pwm_duty
      rampLoop step_interval (rampDuties start_duty dev_speed steps) s
    else (s, [])
  else (s, [])

/-- `PWM::setState(state, speed)`; `abort` is the value of `sys.abort()` at the
entry check. -/
def setState (env : Env) (abort : Bool) (state : SpindleState) (speed : Nat) (s : PWM) :
    PWM × List Event :=
  if abort then (s, [])
  else
    let ev0 := if !env.output_defined then [Event.log_config_error_not_defined] else []
    let dev_speed := env.mapSpeed state speed
    let ev1 := if state ≠ SpindleState.Disable
      then [Event.set_direction (decide (state = SpindleState.Cw))] else []
    let (s2, ev2) := softStart state dev_speed s
    let (s3, ev3) :=
      if env.isRateAdjusted ∧ state = SpindleState.Ccw then set_output env.offSpeed s2
      else set_output dev_speed s2
    let s4 := { s3 with current_state := env.spindleDelayState s3.current_state state speed }
    (s4, ev0 ++ ev1 ++ ev2 ++ ev3 ++ [Event.set_enable (decide (state ≠ SpindleState.Disable)),
      Event.spindleDelay state speed])

/-- Modelled from the spec: `stop()`, absent from the sources, "forces the
spindle into the Disabled state via the normal state-transition path". -/
def stop (env : Env) (abort : Bool) (s : PWM) : PWM × List Event :=
  setState env abort SpindleState.Disable 0 s

/-- `PWM::deinit()`. -/
def deinit (env : Env) (abort : Bool) (s : PWM) : PWM × List Event :=
  let (s1, ev) := stop env abort s
  (s1, ev ++ [Event.setAttr PinId.output_pin PinAttr.Input,
              Event.setAttr PinId.enable_pin PinAttr.Input,
              Event.setAttr PinId.direction_pin PinAttr.Input])

/-- The duty that `PWM::setState` writes after the soft-start block (lines 97 to
102): `offSpeed()` for a rate-adjusted spindle in `Ccw`, else the mapped speed. -/
def finalDuty (env : Env) (state : SpindleState) (speed : Nat) : Nat :=
  if env.isRateAdjusted = true ∧ state = SpindleState.Ccw then env.offSpeed
  else env.mapSpeed state speed

/-! ## Observations on traces -/

/-- The duty values written to the output line, in order. -/
def dutyWrites : List Event → List Nat
  | [] => []
  | Event.setDuty d :: rest => d :: dutyWrites rest
  | _ :: rest => dutyWrites rest

/-- The durations of the suspensions of the caller, in order. -/
def suspends : List Event → List Nat
  | [] => []
  | Event.dwell_ms ms :: rest => ms :: suspends rest
  | _ :: rest => suspends rest

/-- The direction-line commands, in order. -/
def directionWrites : List Event → List Bool
  | [] => []
  | Event.set_direction cw :: rest => cw :: directionWrites rest
  | _ :: rest => directionWrites rest

/-- The enable-line commands, in order. -/
def enableWrites : List Event → List Bool
  | [] => []
  | Event.set_enable enable :: rest => enable :: enableWrites rest
  | _ :: rest => enableWrites rest

/-- The duties that reach the output line when the duties of a list are passed
to `set_output` one after another, from the current duty `cur`. -/
def writesOf (cur : Nat) : List Nat → List Nat
  | [] => []
  | d :: rest => if d = cur then writesOf cur rest else d :: writesOf d rest

/-- The duty written last to the output line, if any was written. -/
def lastDutyWrite (tr : List Event) : Option Nat := (dutyWrites tr).getLast?

/-- The record tracks the line: `_current_pwm_duty` is the duty written last to
the output line, when one was written. -/
def DutyTracked (s : PWM) (tr : List Event) : Prop :=
  lastDutyWrite tr = none ∨ lastDutyWrite tr = some s.current_pwm_duty

instance (s : PWM) (tr : List Event) : Decidable (DutyTracked s tr) := by
  unfold DutyTracked
  infer_instance

/-! ## Sequences of calls -/

/-- One call of a public operation, with the ambient values it reads:
`abort` is `sys.abort()`, `modal` is `gc_state.modal.spindle`. -/
inductive Call where
  | init
  | setState (abort : Bool) (state : SpindleState) (speed : Nat)
  | setSpeedfromISR (modal : SpindleState) (dev_speed : Nat)
  | set_output (duty : Nat)
  | deinit (abort : Bool)
  deriving DecidableEq, Repr

/-- Effect of one call. -/
def runCall (env : Env) : Call → PWM → PWM × List Event
  | Call.init, s => init env s
  | Call.setState abort state speed, s => setState env abort state speed s
  | Call.setSpeedfromISR modal dev_speed, s => setSpeedfromISR modal dev_speed s
  | Call.set_output duty, s => set_output duty s
  | Call.deinit abort, s => deinit env abort s

/-- Effect of a sequence of calls: the final record and the whole trace. -/
def runCalls (env : Env) : List Call → PWM → PWM × List Event
  | [], s => (s, [])
  | c :: rest, s =>
    let (s1, ev1) := runCall env c s
    let (s2, ev2) := runCalls env rest s1
    (s2, ev1 ++ ev2)

/-! ## Sample configurations -/

/-- A configuration with all three lines bound whose speed map gives the
requested speed as the duty (and 0 when disabling). -/
def directEnv (rateAdjusted : Bool) : Env where
  output_defined := true
  output_can_pwm := true
  direction_defined := true
  pwm_freq := 5000
  maxDuty := 8191
  mapSpeed := fun state speed => if state = SpindleState.Disable then 0 else speed
  isRateAdjusted := rateAdjusted
  offSpeed := 0
  spindleDelayState := fun _ state _ => state

/-- A record with the spindle stopped and the given current duty. -/
def stoppedAt (duty : Nat) : PWM where
  is_reversable := true
  current_state := SpindleState.Disable
  current_pwm_duty := duty
  speeds_size := 2


/-! ## Definitions for the claims on ordering, teardown and the ramp bounds -/

/-- The attribute set last on a pin by the calls of a trace, from the
attribute `before` that it had. -/
def pinAttrAfter (pin : PinId) (before : Option PinAttr) (tr : List Event) : Option PinAttr :=
  tr.foldl (fun acc e =>
    match e with
    | Event.setAttr p a => if p = pin then some a else acc
    | _ => acc) before

/-- `PWM::setState` while the abort signal varies: `abortAt t` is the value of
`sys.abort()` at `t` time units after entry.  The body evaluates `sys.abort()`
once, in the entry check of line 54; the ramp loop of lines 79 to 88 does not
evaluate it. -/
def setStateAt (env : Env) (abortAt : Nat → Bool) (state : SpindleState) (speed : Nat)
    (s : PWM) : PWM × List Event :=
  setState env (abortAt 0) state speed s

/-- The interpolated duty of ramp step `i` in exact arithmetic, as the
specification reads the ramp: `start + floor((target - start) * i / steps)`. -/
def rampDutyExact (start_duty dev_speed steps i : Nat) : Nat :=
  start_duty + (dev_speed - start_duty) * i / steps

/-! ## The state transition with the interpolation in exact arithmetic -/

/-- The soft-start block of `PWM::setState` (the `if` of lines 70 to 90) with
the duties of the ramp steps given by `duties start_duty dev_speed steps`. -/
def softStartWith (duties : Nat → Nat → Nat → List Nat) (state : SpindleState)
    (dev_speed : Nat) (s : PWM) : PWM × List Event :=
  if state ≠ SpindleState.Disable ∧ dev_speed > s.current_pwm_duty then
    let duration := 2000
    let step_interval := 20
    if duration ≥ step_interval then
      let steps := duration / step_interval
      let start_duty := s.current_pwm_duty
      rampLoop step_interval (duties start_duty dev_speed steps) s
    else (s, [])
  else (s, [])

/-- `PWM::setState(state, speed)` with the duties of the ramp steps given by
`duties`; with `rampDuties` it is `setState`. -/
def setStateWith (duties : Nat → Nat → Nat → List Nat) (env : Env) (abort : Bool)
    (state : SpindleState) (speed : Nat) (s : PWM) : PWM × List Event :=
  if abort then (s, [])
  else
    let ev0 := if !env.output_defined then [Event.log_config_error_not_defined] else []
    let dev_speed := env.mapSpeed state speed
    let ev1 := if state ≠ SpindleState.Disable
      then [Event.set_direction (decide (state = SpindleState.Cw))] else []
    let (s2, ev2) := softStartWith duties state dev_speed s
    let (s3, ev3) :=
      if env.isRateAdjusted ∧ state = SpindleState.Ccw then set_output env.offSpeed s2
      else set_output dev_speed s2
    let s4 := { s3 with current_state := env.spindleDelayState s3.current_state state speed }
    (s4, ev0 ++ ev1 ++ ev2 ++ ev3 ++ [Event.set_enable (decide (state ≠ SpindleState.Disable)),
      Event.spindleDelay state speed])

theorem roundHalfEven_ge (n den : Nat) : n / den ≤ roundHalfEven n den := by
  unfold roundHalfEven
  simp only
  split_ifs <;> omega

theorem roundHalfEven_le (n den : Nat) : roundHalfEven n den ≤ n / den + 1 := by
  unfold roundHalfEven
  simp only
  split_ifs <;> omega

theorem roundHalfEven_mono (n n' den : Nat) (h : n ≤ n') :
    roundHalfEven n den ≤ roundHalfEven n' den := by
  have hq : n / den ≤ n' / den := Nat.div_le_div_right h
  rcases Nat.lt_or_ge (n / den) (n' / den) with hlt | hge
  · calc roundHalfEven n den ≤ n / den + 1 := roundHalfEven_le n den
      _ ≤ n' / den := hlt
      _ ≤ roundHalfEven n' den := roundHalfEven_ge n' den
  · have he : n / den = n' / den := Nat.le_antisymm hq hge
    have h1 := Nat.div_add_mod n den
    have h2 := Nat.div_add_mod n' den
    rw [he] at h1
    have hr : n % den ≤ n' % den := by omega
    unfold roundHalfEven
    simp only
    rw [he]
    split_ifs <;> omega

/-- Twice the rounded quotient is within one of twice the exact quotient. -/
theorem roundHalfEven_upper (n den : Nat) :
    2 * (den * roundHalfEven n den) ≤ 2 * n + den := by
  have h1 := Nat.div_add_mod n den
  unfold roundHalfEven
  simp only
  split_ifs
  · omega
  · rw [Nat.mul_add]; omega
  · omega
  · rw [Nat.mul_add]; omega

theorem roundHalfEven_mul (a b : Nat) (hb : 0 < b) : roundHalfEven (a * b) b = a := by
  unfold roundHalfEven
  simp [Nat.mul_div_cancel _ hb, hb]

theorem round24Aux_ge (fuel n den : Nat) (h : 2 ^ 23 ≤ n / den) :
    2 ^ 23 ≤ round24Aux fuel n den := by
  induction fuel generalizing den with
  | zero => exact le_trans h (roundHalfEven_ge n den)
  | succ f ih =>
    unfold round24Aux
    split
    · exact le_trans h (roundHalfEven_ge n den)
    · next hq =>
      have h2 : 2 ^ 23 ≤ n / (2 * den) := by
        rw [Nat.mul_comm, ← Nat.div_div_eq_div_mul]
        omega
      have := ih (2 * den) h2
      omega

theorem round24Aux_mono (fuel n n' den : Nat) (h : n ≤ n') :
    round24Aux fuel n den ≤ round24Aux fuel n' den := by
  induction fuel generalizing den with
  | zero => exact roundHalfEven_mono n n' den h
  | succ f ih =>
    have hq : n / den ≤ n' / den := Nat.div_le_div_right h
    unfold round24Aux
    by_cases h1 : n' / den < 2 ^ 24
    · have h0 : n / den < 2 ^ 24 := lt_of_le_of_lt hq h1
      rw [if_pos h0, if_pos h1]
      exact roundHalfEven_mono n n' den h
    · rw [if_neg h1]
      by_cases h0 : n / den < 2 ^ 24
      · rw [if_pos h0]
        have hl := roundHalfEven_le n den
        have h2 : 2 ^ 23 ≤ n' / (2 * den) := by
          rw [Nat.mul_comm, ← Nat.div_div_eq_div_mul]
          omega
        have := round24Aux_ge f n' (2 * den) h2
        omega
      · rw [if_neg h0]
        have := ih (2 * den)
        omega

theorem round24Aux_zero (n den : Nat) : round24Aux 0 n den = roundHalfEven n den := rfl

theorem round24Aux_step (fuel n den : Nat) :
    round24Aux (fuel + 1) n den =
      if n / den < 2 ^ 24 then roundHalfEven n den else 2 * round24Aux fuel n (2 * den) := rfl

theorem round24Aux_succ (fuel n den : Nat) (h : n / (den * 2 ^ fuel) < 2 ^ 24) :
    round24Aux (fuel + 1) n den = round24Aux fuel n den := by
  induction fuel generalizing den with
  | zero =>
    simp only [pow_zero, Nat.mul_one] at h
    rw [round24Aux_step, if_pos h, round24Aux_zero]
  | succ f ih =>
    have h2 : n / (2 * den * 2 ^ f) < 2 ^ 24 := by
      have e : 2 * den * 2 ^ f = den * 2 ^ (f + 1) := by ring
      rw [e]; exact h
    rw [round24Aux_step (f + 1) n den, round24Aux_step f n den, ih (2 * den) h2]

theorem round24Aux_add (fuel extra n den : Nat) (h : n / (den * 2 ^ fuel) < 2 ^ 24) :
    round24Aux (fuel + extra) n den = round24Aux fuel n den := by
  induction extra with
  | zero => rfl
  | succ e ih =>
    rw [← Nat.add_assoc, round24Aux_succ, ih]
    rcases Nat.eq_zero_or_pos den with h0 | h0
    · subst h0; simp
    · have hle : den * 2 ^ fuel ≤ den * 2 ^ (fuel + e) :=
        Nat.mul_le_mul_left _ (Nat.pow_le_pow_right (by decide) (Nat.le_add_right _ _))
      exact lt_of_le_of_lt (Nat.div_le_div_left hle (by positivity)) h

/-- Fuel beyond the number itself changes nothing. -/
theorem round24Aux_fuel (fuel n den : Nat) (h : n ≤ fuel) :
    round24Aux fuel n den = round24 n den := by
  obtain ⟨e, rfl⟩ := Nat.exists_eq_add_of_le h
  unfold round24
  apply round24Aux_add
  rcases Nat.eq_zero_or_pos den with h0 | h0
  · subst h0; simp
  · have h1 : n < den * 2 ^ n :=
      lt_of_lt_of_le (Nat.lt_two_pow n) (Nat.le_mul_of_pos_left _ h0)
    rw [Nat.div_eq_of_lt h1]
    positivity

theorem round24_mono (n n' den : Nat) (h : n ≤ n') : round24 n den ≤ round24 n' den := by
  rw [← round24Aux_fuel n' n den h]
  exact round24Aux_mono n' n n' den h

/-- A number of at most 24 significant bits is left as it is. -/
theorem round24Aux_exact (fuel m k j : Nat) (hm : m < 2 ^ 24) (hj : j ≤ k) (hf : k - j ≤ fuel) :
    round24Aux fuel (m * 2 ^ k) (2 ^ j) = m * 2 ^ (k - j) := by
  have hdiv : m * 2 ^ k = m * 2 ^ (k - j) * 2 ^ j := by
    rw [Nat.mul_assoc, ← pow_add, Nat.sub_add_cancel hj]
  induction fuel generalizing j with
  | zero =>
    have : k - j = 0 := by omega
    rw [round24Aux_zero, hdiv, roundHalfEven_mul _ _ (by positivity)]
  | succ f ih =>
    rw [round24Aux_step]
    split
    · rw [hdiv, roundHalfEven_mul _ _ (by positivity)]
    · next hq =>
      have hjk : j < k := by
        by_contra hc
        have : k - j = 0 := by omega
        rw [hdiv, Nat.mul_div_cancel _ (by positivity), this] at hq
        simp at hq
        omega
      have e2 : 2 * 2 ^ j = 2 ^ (j + 1) := by ring
      have hd2 : m * 2 ^ k = m * 2 ^ (k - (j + 1)) * 2 ^ (j + 1) := by
        rw [Nat.mul_assoc, ← pow_add, Nat.sub_add_cancel hjk]
      rw [e2, ih (j + 1) hjk (by omega) hd2]
      have e3 : k - j = (k - (j + 1)) + 1 := by omega
      rw [e3, pow_succ]
      ring

theorem round24_exact (m k : Nat) (hm : m < 2 ^ 24) : round24 (m * 2 ^ k) 1 = m * 2 ^ k := by
  rw [← round24Aux_fuel (m * 2 ^ k + k) _ _ (Nat.le_add_right _ _)]
  have := round24Aux_exact (m * 2 ^ k + k) m k 0 hm (Nat.zero_le _) (by omega)
  simpa using this

theorem roundHalfEven_below_half (m b r : Nat) (h : 2 * r < b) :
    roundHalfEven (m * b + r) b = m := by
  have hb : 0 < b := by omega
  have hr : r < b := by omega
  have hd : (m * b + r) / b = m := by
    rw [Nat.add_comm, Nat.add_mul_div_right _ _ hb, Nat.div_eq_of_lt hr, Nat.zero_add]
  have hm : (m * b + r) % b = r := by
    rw [Nat.add_comm, Nat.add_mul_mod_self_right, Nat.mod_eq_of_lt hr]
  unfold roundHalfEven
  simp only [hd, hm, if_pos h]

/-- A number less than half a quantum above a normalised 24-bit number is
rounded down to it. -/
theorem round24Aux_below_half (fuel m k r j : Nat) (hm1 : 2 ^ 23 ≤ m) (hm2 : m < 2 ^ 24)
    (hr : 2 * r < 2 ^ k)
    (hj : j ≤ k) (hf : k - j ≤ fuel) :
    round24Aux fuel (m * 2 ^ k + r) (2 ^ j) = m * 2 ^ (k - j) := by
  induction fuel generalizing j with
  | zero =>
    have hjk : j = k := by omega
    subst hjk
    rw [round24Aux_zero, roundHalfEven_below_half _ _ _ hr]
    simp
  | succ f ih =>
    rw [round24Aux_step]
    rcases Nat.lt_or_ge j k with hjk | hjk
    · have hq : ¬ (m * 2 ^ k + r) / 2 ^ j < 2 ^ 24 := by
        have h1 : 2 ^ 24 * 2 ^ j ≤ m * 2 ^ k + r := by
          have e : 2 ^ k = 2 ^ (k - j - 1) * (2 * 2 ^ j) := by
            rw [← pow_succ', ← pow_add]
            congr 1
            omega
          have h2 : 1 ≤ 2 ^ (k - j - 1) := Nat.one_le_two_pow
          calc 2 ^ 24 * 2 ^ j = 2 ^ 23 * 1 * (2 * 2 ^ j) := by ring
            _ ≤ m * 2 ^ (k - j - 1) * (2 * 2 ^ j) :=
                Nat.mul_le_mul_right _ (Nat.mul_le_mul hm1 h2)
            _ = m * 2 ^ k := by rw [e]; ring
            _ ≤ m * 2 ^ k + r := Nat.le_add_right _ _
        have := (Nat.le_div_iff_mul_le (by positivity)).mpr h1
        omega
      rw [if_neg hq]
      have e2 : 2 * 2 ^ j = 2 ^ (j + 1) := by ring
      rw [e2, ih (j + 1) hjk (by omega)]
      have e3 : k - j = (k - (j + 1)) + 1 := by omega
      rw [e3, pow_succ]
      ring
    · have hjk2 : j = k := by omega
      subst hjk2
      have hd : (m * 2 ^ j + r) / 2 ^ j = m := by
        rw [Nat.add_comm, Nat.add_mul_div_right _ _ (by positivity),
          Nat.div_eq_of_lt (by omega), Nat.zero_add]
      rw [if_pos (by rw [hd]; exact hm2), roundHalfEven_below_half _ _ _ hr]
      simp

theorem round24_below_half (m k r : Nat) (hm1 : 2 ^ 23 ≤ m) (hm2 : m < 2 ^ 24)
    (hr : 2 * r < 2 ^ k) : round24 (m * 2 ^ k + r) 1 = m * 2 ^ k := by
  rw [← round24Aux_fuel (m * 2 ^ k + r + k) _ _ (Nat.le_add_right _ _)]
  have := round24Aux_below_half (m * 2 ^ k + r + k) m k r 0 hm1 hm2 hr (Nat.zero_le _) (by omega)
  simpa using this

/-- The rounded quotient exceeds the exact one by at most half a quantum. -/
theorem round24Aux_upper (fuel n den K : Nat) (h : n / den < 2 ^ 24 * 2 ^ K) :
    2 * (den * round24Aux fuel n den) ≤ 2 * n + den * 2 ^ K := by
  have hbase : 2 * (den * roundHalfEven n den) ≤ 2 * n + den * 2 ^ K := by
    have h1 := roundHalfEven_upper n den
    have h2 : den ≤ den * 2 ^ K := Nat.le_mul_of_pos_right _ (by positivity)
    omega
  induction fuel generalizing den K with
  | zero => exact hbase
  | succ f ih =>
    rw [round24Aux_step]
    split
    · exact hbase
    · next hq =>
      cases K with
      | zero => simp at h; omega
      | succ K =>
        have h2 : n / (2 * den) < 2 ^ 24 * 2 ^ K := by
          rw [Nat.mul_comm, ← Nat.div_div_eq_div_mul]
          rw [pow_succ] at h
          omega
        have h3 := ih (2 * den) K h2 (by
          have h1 := roundHalfEven_upper n (2 * den)
          have h4 : 2 * den ≤ 2 * den * 2 ^ K := Nat.le_mul_of_pos_right _ (by positivity)
          omega)
        have e1 : den * (2 * round24Aux f n (2 * den)) = 2 * den * round24Aux f n (2 * den) := by
          ring
        have e2 : den * 2 ^ (K + 1) = 2 * den * 2 ^ K := by ring
        rw [e1, e2]
        exact h3

theorem round24_upper (n den K : Nat) (h : n / den < 2 ^ 24 * 2 ^ K) :
    2 * (den * round24 n den) ≤ 2 * n + den * 2 ^ K :=
  round24Aux_upper n n den K h

/-! ## Traces -/

theorem dutyWrites_append (a b : List Event) :
    dutyWrites (a ++ b) = dutyWrites a ++ dutyWrites b := by
  induction a with
  | nil => rfl
  | cons e rest ih => cases e <;> simp [dutyWrites, ih]

theorem suspends_append (a b : List Event) :
    suspends (a ++ b) = suspends a ++ suspends b := by
  induction a with
  | nil => rfl
  | cons e rest ih => cases e <;> simp [suspends, ih]

theorem directionWrites_append (a b : List Event) :
    directionWrites (a ++ b) = directionWrites a ++ directionWrites b := by
  induction a with
  | nil => rfl
  | cons e rest ih => cases e <;> simp [directionWrites, ih]

theorem enableWrites_append (a b : List Event) :
    enableWrites (a ++ b) = enableWrites a ++ enableWrites b := by
  induction a with
  | nil => rfl
  | cons e rest ih => cases e <;> simp [enableWrites, ih]

/-! ## The write primitive -/

theorem set_output_state (d : Nat) (s : PWM) :
    (set_output d s).1 = { s with current_pwm_duty := d } := by
  unfold set_output
  split
  · next h => cases s; simp_all
  · rfl

theorem set_output_duty (d : Nat) (s : PWM) : (set_output d s).1.current_pwm_duty = d := by
  rw [set_output_state]

theorem set_output_events (d : Nat) (s : PWM) :
    (set_output d s).2 = if d = s.current_pwm_duty then [] else [Event.setDuty d] := by
  unfold set_output
  split <;> rfl

theorem set_output_dutyWrites (d : Nat) (s : PWM) :
    dutyWrites (set_output d s).2 = if d = s.current_pwm_duty then [] else [d] := by
  rw [set_output_events]
  split <;> rfl

theorem set_output_suspends (d : Nat) (s : PWM) : suspends (set_output d s).2 = [] := by
  rw [set_output_events]
  split <;> rfl

theorem set_output_directionWrites (d : Nat) (s : PWM) :
    directionWrites (set_output d s).2 = [] := by
  rw [set_output_events]
  split <;> rfl

/-! ## The ramp loop -/

theorem rampLoop_cons (iv d : Nat) (rest : List Nat) (s : PWM) :
    rampLoop iv (d :: rest) s =
      ((rampLoop iv rest (set_output d s).1).1,
        (set_output d s).2 ++ Event.dwell_ms iv :: (rampLoop iv rest (set_output d s).1).2) := rfl

theorem rampLoop_suspends (iv : Nat) (ds : List Nat) (s : PWM) :
    suspends (rampLoop iv ds s).2 = List.replicate ds.length iv := by
  induction ds generalizing s with
  | nil => rfl
  | cons d rest ih =>
    rw [rampLoop_cons]
    simp [suspends_append, set_output_suspends, suspends, ih, List.replicate_succ]

theorem rampLoop_directionWrites (iv : Nat) (ds : List Nat) (s : PWM) :
    directionWrites (rampLoop iv ds s).2 = [] := by
  induction ds generalizing s with
  | nil => rfl
  | cons d rest ih =>
    rw [rampLoop_cons]
    simp [directionWrites_append, set_output_directionWrites, directionWrites, ih]

theorem rampLoop_duty (iv : Nat) (ds : List Nat) (s : PWM) :
    (rampLoop iv ds s).1.current_pwm_duty = (ds.getLast?).getD s.current_pwm_duty := by
  induction ds generalizing s with
  | nil => rfl
  | cons d rest ih =>
    rw [rampLoop_cons]
    simp only [ih, set_output_duty]
    cases rest with
    | nil => rfl
    | cons e rest2 =>
      rw [List.getLast?_cons_cons, List.getLast?_eq_getLast (e :: rest2) (by simp)]
      rfl

theorem rampLoop_frame (iv : Nat) (ds : List Nat) (s : PWM) :
    (rampLoop iv ds s).1 = { s with current_pwm_duty := (rampLoop iv ds s).1.current_pwm_duty } := by
  induction ds generalizing s with
  | nil => rfl
  | cons d rest ih =>
    rw [rampLoop_cons]
    simp only
    rw [ih, set_output_state]

/-! ## The state transition -/

theorem softStart_eq (state : SpindleState) (dev_speed : Nat) (s : PWM) :
    softStart state dev_speed s =
      if state ≠ SpindleState.Disable ∧ dev_speed > s.current_pwm_duty then
        rampLoop 20 (rampDuties s.current_pwm_duty dev_speed 100) s
      else (s, []) := by
  unfold softStart
  split <;> simp

theorem rampDuties_length (start_duty dev_speed steps : Nat) :
    (rampDuties start_duty dev_speed steps).length = steps := by
  simp [rampDuties]

theorem softStart_frame (state : SpindleState) (dev_speed : Nat) (s : PWM) :
    (softStart state dev_speed s).1 =
      { s with current_pwm_duty := (softStart state dev_speed s).1.current_pwm_duty } := by
  rw [softStart_eq]
  split
  · exact rampLoop_frame _ _ _
  · rfl

theorem softStart_directionWrites (state : SpindleState) (dev_speed : Nat) (s : PWM) :
    directionWrites (softStart state dev_speed s).2 = [] := by
  rw [softStart_eq]
  split
  · exact rampLoop_directionWrites _ _ _
  · rfl

theorem softStart_skip (state : SpindleState) (dev_speed : Nat) (s : PWM)
    (h : state = SpindleState.Disable ∨ dev_speed ≤ s.current_pwm_duty) :
    softStart state dev_speed s = (s, []) := by
  rw [softStart_eq, if_neg]
  rintro ⟨h1, h2⟩
  rcases h with h | h
  · exact h1 h
  · omega

theorem setState_eq (env : Env) (state : SpindleState) (speed : Nat) (s : PWM) :
    setState env false state speed s =
      ({ (set_output (finalDuty env state speed)
            (softStart state (env.mapSpeed state speed) s).1).1 with
          current_state := env.spindleDelayState s.current_state state speed },
        (if !env.output_defined then [Event.log_config_error_not_defined] else []) ++
        (if state ≠ SpindleState.Disable
          then [Event.set_direction (decide (state = SpindleState.Cw))] else []) ++
        (softStart state (env.mapSpeed state speed) s).2 ++
        (set_output (finalDuty env state speed)
            (softStart state (env.mapSpeed state speed) s).1).2 ++
        [Event.set_enable (decide (state ≠ SpindleState.Disable)),
          Event.spindleDelay state speed]) := by
  have hcs : (set_output (finalDuty env state speed)
      (softStart state (env.mapSpeed state speed) s).1).1.current_state = s.current_state := by
    rw [set_output_state, softStart_frame]
  unfold setState finalDuty
  simp only [Bool.false_eq_true, if_false]
  split <;> simp_all [finalDuty]

theorem setState_dutyWrites (env : Env) (state : SpindleState) (speed : Nat) (s : PWM) :
    dutyWrites (setState env false state speed s).2 =
      dutyWrites (softStart state (env.mapSpeed state speed) s).2 ++
      dutyWrites (set_output (finalDuty env state speed)
        (softStart state (env.mapSpeed state speed) s).1).2 := by
  rw [setState_eq]
  simp only [dutyWrites_append]
  have h0 : dutyWrites (if !env.output_defined then [Event.log_config_error_not_defined]
      else []) = [] := by split <;> rfl
  have h1 : dutyWrites (if state ≠ SpindleState.Disable
      then [Event.set_direction (decide (state = SpindleState.Cw))] else []) = [] := by
    split <;> rfl
  rw [h0, h1]
  simp [dutyWrites]

theorem setState_suspends (env : Env) (state : SpindleState) (speed : Nat) (s : PWM) :
    suspends (setState env false state speed s).2 =
      suspends (softStart state (env.mapSpeed state speed) s).2 := by
  rw [setState_eq]
  simp only [suspends_append]
  have h0 : suspends (if !env.output_defined then [Event.log_config_error_not_defined]
      else []) = [] := by split <;> rfl
  have h1 : suspends (if state ≠ SpindleState.Disable
      then [Event.set_direction (decide (state = SpindleState.Cw))] else []) = [] := by
    split <;> rfl
  rw [h0, h1, set_output_suspends]
  simp [suspends]

/-! ## Claims on `setState`, `set_output` and `init` -/

/-- C1: when the machine-wide abort is active, `setState` returns the record
unchanged (in particular `_current_pwm_duty` and `_current_state`) and makes no
call on any collaborator: no duty write, no direction or enable command, no
suspension. -/
theorem setState_abort_noop (env : Env) (state : SpindleState) (speed : Nat) (s : PWM) :
    setState env true state speed s = (s, []) := by
  simp [setState]

/-- C2: after a `setState` that is not aborted, `_current_pwm_duty` is the off
duty when the spindle is rate adjusted and the state is `Ccw`, and the mapped
speed `mapSpeed(state, speed)` in every other case. -/
theorem setState_final_duty (env : Env) (state : SpindleState) (speed : Nat) (s : PWM) :
    (setState env false state speed s).1.current_pwm_duty =
      if env.isRateAdjusted = true ∧ state = SpindleState.Ccw then env.offSpeed
      else env.mapSpeed state speed := by
  rw [setState_eq]
  simp only [set_output_duty]
  rfl

/-- C5: `set_output(d)` writes the duty `d` to the output line exactly when `d`
differs from `_current_pwm_duty`, makes no other call and at most one write,
and returns the record with `_current_pwm_duty = d` and every other field
unchanged. -/
theorem set_output_contract (d : Nat) (s : PWM) :
    (Event.setDuty d ∈ (set_output d s).2 ↔ d ≠ s.current_pwm_duty) ∧
    (∀ e ∈ (set_output d s).2, e = Event.setDuty d) ∧
    (set_output d s).2.length ≤ 1 ∧
    (set_output d s).1 = { s with current_pwm_duty := d } ∧
    (set_output d s).1.current_pwm_duty = d := by
  refine ⟨?_, ?_, ?_, set_output_state d s, set_output_duty d s⟩
  · rw [set_output_events]
    split <;> simp_all
  · rw [set_output_events]
    split <;> simp
  · rw [set_output_events]
    split <;> simp

/-- C6, as stated, fails: with `_current_pwm_duty` already 5, the calls
`set_output(5); set_output(5)` write nothing at all. -/
theorem set_output_twice_same_duty_counterexample :
    (dutyWrites ((set_output 5 (stoppedAt 5)).2 ++
      (set_output 5 (set_output 5 (stoppedAt 5)).1).2)).length ≠ 1 := by
  decide

/-- C6, amended: the calls `set_output(d); set_output(d)` write `d` once when `d`
differs from `_current_pwm_duty` and write nothing when it equals it; the second
call never writes. -/
theorem set_output_twice (d : Nat) (s : PWM) :
    dutyWrites ((set_output d s).2 ++ (set_output d (set_output d s).1).2) =
      (if d = s.current_pwm_duty then [] else [d]) ∧
    (set_output d (set_output d s).1).2 = [] := by
  have h2 : (set_output d (set_output d s).1).2 = [] := by
    rw [set_output_events, set_output_duty]
    simp
  rw [h2, List.append_nil, set_output_dutyWrites]
  exact ⟨rfl, rfl⟩

/-- C8: after `init`, whatever the record was and whatever the output pin is
(bound and PWM capable, bound and not PWM capable, unbound), `_current_state`
is `Disable` and `_current_pwm_duty` is 0. -/
theorem init_resets (env : Env) (s : PWM) :
    (init env s).1.current_state = SpindleState.Disable ∧
    (init env s).1.current_pwm_duty = 0 := by
  unfold init
  constructor <;> (simp only; split <;> rfl)

/-- C9: `setState(Disable, speed)`, aborted or not, suspends the caller in no
ramp step, gives no direction-line command, and writes at most one duty, which
can only be the mapped speed. -/
theorem setState_disable_no_ramp (env : Env) (abort : Bool) (speed : Nat) (s : PWM) :
    suspends (setState env abort SpindleState.Disable speed s).2 = [] ∧
    directionWrites (setState env abort SpindleState.Disable speed s).2 = [] ∧
    (dutyWrites (setState env abort SpindleState.Disable speed s).2).length ≤ 1 ∧
    (∀ d ∈ dutyWrites (setState env abort SpindleState.Disable speed s).2,
      d = env.mapSpeed SpindleState.Disable speed) := by
  cases abort with
  | true => simp [setState_abort_noop, suspends, directionWrites, dutyWrites]
  | false =>
    have hs := softStart_skip SpindleState.Disable
      (env.mapSpeed SpindleState.Disable speed) s (Or.inl rfl)
    have hf : finalDuty env SpindleState.Disable speed =
        env.mapSpeed SpindleState.Disable speed := by simp [finalDuty]
    refine ⟨?_, ?_, ?_, ?_⟩
    · rw [setState_suspends, hs]; rfl
    · rw [setState_eq, hs]
      simp only [directionWrites_append, set_output_directionWrites]
      have h0 : directionWrites (if !env.output_defined
          then [Event.log_config_error_not_defined] else []) = [] := by split <;> rfl
      rw [h0]
      simp [directionWrites]
    · rw [setState_dutyWrites, hs, set_output_dutyWrites]
      split <;> simp [dutyWrites]
    · rw [setState_dutyWrites, hs, set_output_dutyWrites, hf]
      split <;> simp [dutyWrites]

/-- C10, as stated, fails: for a rate-adjusted spindle in `Ccw` with mapped
target 5 below the current duty 10, the one duty written is the off duty 0, not
the target 5. -/
theorem setState_lower_target_counterexample :
    (directEnv true).mapSpeed SpindleState.Ccw 5 < (stoppedAt 10).current_pwm_duty ∧
    dutyWrites (setState (directEnv true) false SpindleState.Ccw 5 (stoppedAt 10)).2 = [0] ∧
    dutyWrites (setState (directEnv true) false SpindleState.Ccw 5 (stoppedAt 10)).2 ≠ [5] := by
  decide

/-- C10, amended: a `setState` that is not aborted and whose mapped target `T` is
not above the current duty `s` suspends the caller in no ramp step.  Outside the
rate-adjusted `Ccw` case it writes exactly one duty, `T`, when `T < s` and none
when `T = s`; in the rate-adjusted `Ccw` case the duty concerned is the off
duty: it is written once when it differs from `s`, and nothing is written
otherwise. -/
theorem setState_no_ramp (env : Env) (state : SpindleState) (speed : Nat) (s : PWM)
    (h : env.mapSpeed state speed ≤ s.current_pwm_duty) :
    suspends (setState env false state speed s).2 = [] ∧
    (¬(env.isRateAdjusted = true ∧ state = SpindleState.Ccw) →
      dutyWrites (setState env false state speed s).2 =
        if env.mapSpeed state speed = s.current_pwm_duty then []
        else [env.mapSpeed state speed]) ∧
    (env.isRateAdjusted = true ∧ state = SpindleState.Ccw →
      dutyWrites (setState env false state speed s).2 =
        if env.offSpeed = s.current_pwm_duty then [] else [env.offSpeed]) := by
  have hs := softStart_skip state (env.mapSpeed state speed) s (Or.inr h)
  refine ⟨?_, ?_, ?_⟩
  · rw [setState_suspends, hs]; rfl
  · intro hr
    rw [setState_dutyWrites, hs, set_output_dutyWrites]
    simp [finalDuty, hr, dutyWrites]
  · intro hr
    rw [setState_dutyWrites, hs, set_output_dutyWrites]
    simp [finalDuty, hr, dutyWrites]

/-- Witness of C10: `setState(Cw, 1000)` on a record whose current duty is 3000
writes the duty 1000 once and does not suspend. -/
theorem setState_no_ramp_witness :
    (directEnv false).mapSpeed SpindleState.Cw 1000 ≤ (stoppedAt 3000).current_pwm_duty ∧
    suspends (setState (directEnv false) false SpindleState.Cw 1000 (stoppedAt 3000)).2 = [] ∧
    dutyWrites (setState (directEnv false) false SpindleState.Cw 1000 (stoppedAt 3000)).2 =
      [1000] :=
  ⟨by decide,
   (setState_no_ramp (directEnv false) SpindleState.Cw 1000 (stoppedAt 3000) (by decide)).1,
   by
    have h := (setState_no_ramp (directEnv false) SpindleState.Cw 1000 (stoppedAt 3000)
      (by decide)).2.1 (by decide)
    rw [h]
    decide⟩

/-! ## The duty record and the output line -/

theorem lastDutyWrite_append (a b : List Event) :
    lastDutyWrite (a ++ b) = (lastDutyWrite b).or (lastDutyWrite a) := by
  unfold lastDutyWrite
  rw [dutyWrites_append, List.getLast?_append]

theorem dutyTracked_set_output (d : Nat) (s : PWM) (tr : List Event) (h : DutyTracked s tr) :
    DutyTracked (set_output d s).1 (tr ++ (set_output d s).2) := by
  unfold DutyTracked at *
  rw [lastDutyWrite_append, set_output_duty, set_output_events]
  split
  · next hd =>
    subst hd
    simpa [lastDutyWrite, dutyWrites] using h
  · right
    simp [lastDutyWrite, dutyWrites]

/-- Events that are not duty writes leave the tracking as it is. -/
theorem dutyTracked_append_silent (s s1 : PWM) (tr ev : List Event)
    (hd : s1.current_pwm_duty = s.current_pwm_duty) (hev : dutyWrites ev = [])
    (h : DutyTracked s tr) : DutyTracked s1 (tr ++ ev) := by
  unfold DutyTracked at *
  rw [lastDutyWrite_append, hd]
  have : lastDutyWrite ev = none := by simp [lastDutyWrite, hev]
  rw [this]
  simpa using h

theorem dutyTracked_rampLoop (iv : Nat) (ds : List Nat) (s : PWM) (tr : List Event)
    (h : DutyTracked s tr) :
    DutyTracked (rampLoop iv ds s).1 (tr ++ (rampLoop iv ds s).2) := by
  induction ds generalizing s tr with
  | nil => simpa [rampLoop] using h
  | cons d rest ih =>
    rw [rampLoop_cons]
    simp only
    have h1 := dutyTracked_set_output d s tr h
    have h2 := dutyTracked_append_silent (set_output d s).1 (set_output d s).1
      (tr ++ (set_output d s).2) [Event.dwell_ms iv] rfl rfl h1
    have h3 := ih (set_output d s).1 _ h2
    simpa [List.append_assoc] using h3

theorem dutyTracked_softStart (state : SpindleState) (dev_speed : Nat) (s : PWM)
    (tr : List Event) (h : DutyTracked s tr) :
    DutyTracked (softStart state dev_speed s).1 (tr ++ (softStart state dev_speed s).2) := by
  rw [softStart_eq]
  split
  · exact dutyTracked_rampLoop _ _ _ _ h
  · simpa using h

theorem dutyTracked_setState (env : Env) (abort : Bool) (state : SpindleState) (speed : Nat)
    (s : PWM) (tr : List Event) (h : DutyTracked s tr) :
    DutyTracked (setState env abort state speed s).1
      (tr ++ (setState env abort state speed s).2) := by
  cases abort with
  | true => simpa [setState_abort_noop] using h
  | false =>
    rw [setState_eq]
    simp only
    have h0 := dutyTracked_append_silent s s tr
      ((if !env.output_defined then [Event.log_config_error_not_defined] else []) ++
        (if state ≠ SpindleState.Disable
          then [Event.set_direction (decide (state = SpindleState.Cw))] else [])) rfl
      (by rw [dutyWrites_append]; split <;> split <;> rfl) h
    have h1 := dutyTracked_softStart state (env.mapSpeed state speed) s _ h0
    have h2 := dutyTracked_set_output (finalDuty env state speed) _ _ h1
    have h3 := dutyTracked_append_silent _
      { (set_output (finalDuty env state speed)
            (softStart state (env.mapSpeed state speed) s).1).1 with
          current_state := env.spindleDelayState s.current_state state speed } _
      [Event.set_enable (decide (state ≠ SpindleState.Disable)),
        Event.spindleDelay state speed] rfl rfl h2
    simpa [List.append_assoc] using h3

theorem dutyTracked_runCall (env : Env) (c : Call) (s : PWM) (tr : List Event)
    (hc : c ≠ Call.init) (h : DutyTracked s tr) :
    DutyTracked (runCall env c s).1 (tr ++ (runCall env c s).2) := by
  cases c with
  | init => exact absurd rfl hc
  | setState abort state speed => exact dutyTracked_setState env abort state speed s tr h
  | setSpeedfromISR modal dev_speed =>
    have h1 := dutyTracked_append_silent s s tr
      [Event.set_enable (decide (modal ≠ SpindleState.Disable))] rfl rfl h
    have h2 := dutyTracked_set_output dev_speed s _ h1
    simpa [runCall, setSpeedfromISR, List.append_assoc] using h2
  | set_output duty => exact dutyTracked_set_output duty s tr h
  | deinit abort =>
    have h1 := dutyTracked_setState env abort SpindleState.Disable 0 s tr h
    have h2 := dutyTracked_append_silent _ (setState env abort SpindleState.Disable 0 s).1 _
      [Event.setAttr PinId.output_pin PinAttr.Input,
        Event.setAttr PinId.enable_pin PinAttr.Input,
        Event.setAttr PinId.direction_pin PinAttr.Input] rfl rfl h1
    simpa [runCall, deinit, stop, List.append_assoc] using h2

theorem dutyTracked_runCalls (env : Env) (calls : List Call) (s : PWM) (tr : List Event)
    (hc : Call.init ∉ calls) (h : DutyTracked s tr) :
    DutyTracked (runCalls env calls s).1 (tr ++ (runCalls env calls s).2) := by
  induction calls generalizing s tr with
  | nil => simpa [runCalls] using h
  | cons c rest ih =>
    have hc1 : c ≠ Call.init := fun e => hc (by simp [e])
    have hc2 : Call.init ∉ rest := fun e => hc (by simp [e])
    have h1 := dutyTracked_runCall env c s tr hc1 h
    have h2 := ih (runCall env c s).1 _ hc2 h1
    simpa [runCalls, List.append_assoc] using h2


/-! ## The ramp arithmetic -/

theorem f32OfNat_exact (n : Nat) (h : n < 2 ^ 24) : f32OfNat n = n := by
  have := round24_exact n 0 h
  simpa [f32OfNat] using this

theorem f32OfNat_mono (n n' : Nat) (h : n ≤ n') : f32OfNat n ≤ f32OfNat n' :=
  round24_mono n n' 1 h

theorem f32Mul_mono (x i j : Nat) (h : i ≤ j) : f32Mul x i ≤ f32Mul x j :=
  round24_mono _ _ 1 (Nat.mul_le_mul_left x (f32OfNat_mono i j h))

theorem f32ToU32_mono (x y : Nat) (h : x ≤ y) : f32ToU32 x ≤ f32ToU32 y := by
  unfold f32ToU32
  have := Nat.div_le_div_right (c := 2 ^ f32Frac) h
  omega

/-- The binary32 quotient by 100, multiplied back by 100, stays less than half
a unit above the dividend, up to the dividend `100 * 2^17`. -/
theorem f32Div_hundred_upper (d : Nat) (h1 : 1 ≤ d) (h2 : d ≤ 13107200) :
    100 * f32Div d 100 < d * 2 ^ 31 + 2 ^ 30 := by
  have h100 : f32OfNat 100 = 100 := f32OfNat_exact 100 (by norm_num)
  unfold f32Div f32Frac
  rw [h100]
  rcases Nat.lt_or_ge d 13107200 with hlt | hge
  · have hq : d * 2 ^ 31 / 100 < 2 ^ 24 * 2 ^ 24 := by
      rw [Nat.div_lt_iff_lt_mul (by norm_num)]
      norm_num
      omega
    have := round24_upper (d * 2 ^ 31) 100 24 hq
    norm_num at this ⊢
    omega
  · have hd : d = 13107200 := by omega
    subst hd
    decide

/-- A binary32 value less than `d + 1/2` truncates to at most `d`. -/
theorem round24_trunc_le (y d : Nat) (hd : d < 2 ^ 24) (hy : y < d * 2 ^ 31 + 2 ^ 30) :
    round24 y 1 / 2 ^ 31 ≤ d := by
  rcases Nat.lt_or_ge d (2 ^ 23) with hlt | hge
  · have hm : 2 * d + 1 < 2 ^ 24 := by norm_num at hlt ⊢; omega
    have h1 : round24 y 1 ≤ round24 ((2 * d + 1) * 2 ^ 30) 1 := by
      apply round24_mono
      norm_num at hy ⊢
      omega
    rw [round24_exact _ _ hm] at h1
    have h2 := Nat.div_le_div_right (c := 2 ^ 31) h1
    norm_num at h2 ⊢
    omega
  · have h1 : round24 y 1 ≤ round24 (d * 2 ^ 31 + (2 ^ 30 - 1)) 1 := by
      apply round24_mono
      norm_num at hy ⊢
      omega
    rw [round24_below_half d 31 (2 ^ 30 - 1) hge hd (by norm_num)] at h1
    have h2 := Nat.div_le_div_right (c := 2 ^ 31) h1
    rw [Nat.mul_div_cancel _ (by positivity)] at h2
    exact h2

/-- The increment `(uint32_t)(duty_delta * i)` of ramp step `i`. -/
theorem rampStep_mono (d steps i j : Nat) (h : i ≤ j) :
    f32ToU32 (f32Mul (f32Div (f32OfNat d) steps) i) ≤
      f32ToU32 (f32Mul (f32Div (f32OfNat d) steps) j) :=
  f32ToU32_mono _ _ (f32Mul_mono _ i j h)

theorem rampStep_le (d i : Nat) (h1 : 1 ≤ d) (h2 : d ≤ 13107200) (hi : i ≤ 100) :
    f32ToU32 (f32Mul (f32Div (f32OfNat d) 100) i) ≤ d := by
  have hd24 : d < 2 ^ 24 := by norm_num; omega
  refine le_trans (rampStep_mono d 100 i 100 hi) ?_
  rw [f32OfNat_exact d hd24]
  have h100 : f32OfNat 100 = 100 := f32OfNat_exact 100 (by norm_num)
  have hk := f32Div_hundred_upper d h1 h2
  unfold f32ToU32 f32Mul f32Frac
  rw [h100]
  have hy : f32Div d 100 * 100 < d * 2 ^ 31 + 2 ^ 30 := by rw [Nat.mul_comm]; exact hk
  have := round24_trunc_le _ d hd24 hy
  exact le_trans (Nat.min_le_left _ _) this

theorem rampDuty_eq (s T i : Nat) (hs : s < T) (hd : T - s ≤ 13107200) (hT : T < 2 ^ 32)
    (hi : i ≤ 100) :
    rampDuty s T 100 i = s + f32ToU32 (f32Mul (f32Div (f32OfNat (T - s)) 100) i) := by
  have h := rampStep_le (T - s) i (by omega) hd hi
  unfold rampDuty
  simp only
  apply Nat.mod_eq_of_lt
  omega

theorem rampDuty_bounds (s T i : Nat) (hs : s < T) (hd : T - s ≤ 13107200) (hT : T < 2 ^ 32)
    (hi : i ≤ 100) : s ≤ rampDuty s T 100 i ∧ rampDuty s T 100 i ≤ T := by
  have h := rampStep_le (T - s) i (by omega) hd hi
  rw [rampDuty_eq s T i hs hd hT hi]
  omega

theorem rampDuty_mono (s T i j : Nat) (hs : s < T) (hd : T - s ≤ 13107200) (hT : T < 2 ^ 32)
    (hij : i ≤ j) (hj : j ≤ 100) : rampDuty s T 100 i ≤ rampDuty s T 100 j := by
  rw [rampDuty_eq s T i hs hd hT (le_trans hij hj), rampDuty_eq s T j hs hd hT hj]
  have := rampStep_mono (T - s) 100 i j hij
  omega

theorem rampDuties_sorted (s T : Nat) (hs : s < T) (hd : T - s ≤ 13107200) (hT : T < 2 ^ 32) :
    List.Pairwise (· ≤ ·) (rampDuties s T 100) := by
  unfold rampDuties
  rw [List.pairwise_map]
  have hp : List.Pairwise (· < ·) (List.range' 1 100) := List.pairwise_lt_range' 1 100
  refine List.Pairwise.imp_of_mem ?_ hp
  intro i j hi hj hij
  rw [List.mem_range'_1] at hi hj
  exact rampDuty_mono s T i j hs hd hT (le_of_lt hij) (by omega)

theorem rampDuties_bounds (s T : Nat) (hs : s < T) (hd : T - s ≤ 13107200) (hT : T < 2 ^ 32) :
    ∀ v ∈ rampDuties s T 100, s ≤ v ∧ v ≤ T := by
  intro v hv
  unfold rampDuties at hv
  rw [List.mem_map] at hv
  obtain ⟨i, hi, rfl⟩ := hv
  rw [List.mem_range'_1] at hi
  exact rampDuty_bounds s T i hs hd hT (by omega)

/-! ## Duties passed and duties written -/

theorem writesOf_cons (cur d : Nat) (rest : List Nat) :
    writesOf cur (d :: rest) = if d = cur then writesOf cur rest else d :: writesOf d rest := rfl

theorem rampLoop_dutyWrites (iv : Nat) (ds : List Nat) (s : PWM) :
    dutyWrites (rampLoop iv ds s).2 = writesOf s.current_pwm_duty ds := by
  induction ds generalizing s with
  | nil => rfl
  | cons d rest ih =>
    rw [rampLoop_cons]
    simp only [dutyWrites_append, set_output_dutyWrites, dutyWrites, ih, set_output_duty]
    rw [writesOf_cons]
    split <;> simp_all

theorem getLast?_getD_cons (d c : Nat) (l : List Nat) :
    ((d :: l).getLast?).getD c = (l.getLast?).getD d := by
  cases l with
  | nil => rfl
  | cons e rest =>
    rw [List.getLast?_cons_cons, List.getLast?_eq_getLast (e :: rest) (by simp)]
    rfl

theorem writesOf_append (cur : Nat) (a b : List Nat) :
    writesOf cur (a ++ b) = writesOf cur a ++ writesOf ((a.getLast?).getD cur) b := by
  induction a generalizing cur with
  | nil => rfl
  | cons d rest ih =>
    rw [List.cons_append, getLast?_getD_cons, writesOf_cons, writesOf_cons]
    split
    · next h => subst h; exact ih d
    · rw [ih d]; rfl

/-- The duty written last, or the starting duty when none was written, is the
duty passed last, or the starting duty when none was passed. -/
theorem writesOf_getLast (cur : Nat) (l : List Nat) :
    ((writesOf cur l).getLast?).getD cur = (l.getLast?).getD cur := by
  induction l generalizing cur with
  | nil => rfl
  | cons d rest ih =>
    rw [getLast?_getD_cons, writesOf_cons]
    split
    · next h => subst h; exact ih d
    · rw [getLast?_getD_cons]; exact ih d

theorem writesOf_length (cur : Nat) (l : List Nat) : (writesOf cur l).length ≤ l.length := by
  induction l generalizing cur with
  | nil => exact Nat.le_refl _
  | cons d rest ih =>
    rw [writesOf_cons]
    split
    · exact le_trans (ih cur) (Nat.le_succ _)
    · exact Nat.succ_le_succ (ih d)

/-- When the duties passed never decrease, from the current duty on, the duties
written increase strictly, are above the starting duty and are among the duties
passed. -/
theorem writesOf_sorted (cur : Nat) (l : List Nat) (hl : ∀ x ∈ l, cur ≤ x)
    (hs : List.Pairwise (· ≤ ·) l) :
    List.Pairwise (· < ·) (writesOf cur l) ∧ ∀ w ∈ writesOf cur l, cur < w ∧ w ∈ l := by
  induction l generalizing cur with
  | nil => exact ⟨List.Pairwise.nil, fun w hw => by simp [writesOf] at hw⟩
  | cons d rest ih =>
    rw [List.pairwise_cons] at hs
    rw [writesOf_cons]
    split
    · next h =>
      have := ih cur (fun x hx => hl x (List.mem_cons_of_mem _ hx)) hs.2
      exact ⟨this.1, fun w hw => ⟨(this.2 w hw).1, List.mem_cons_of_mem _ (this.2 w hw).2⟩⟩
    · next h =>
      have hd : cur < d := lt_of_le_of_ne (hl d (List.mem_cons_self _ _)) (Ne.symm h)
      have := ih d hs.1 hs.2
      refine ⟨List.Pairwise.cons (fun w hw => (this.2 w hw).1) this.1, ?_⟩
      intro w hw
      rcases List.mem_cons.mp hw with rfl | hw
      · exact ⟨hd, List.mem_cons_self _ _⟩
      · exact ⟨lt_trans hd (this.2 w hw).1, List.mem_cons_of_mem _ (this.2 w hw).2⟩

/-- The duties that a `setState` that ramps passes to `set_output`: the ramp
steps and then the final duty. -/
theorem setState_ramp_dutyWrites (env : Env) (state : SpindleState) (speed : Nat) (s : PWM)
    (hst : state ≠ SpindleState.Disable) (hT : s.current_pwm_duty < env.mapSpeed state speed) :
    dutyWrites (setState env false state speed s).2 =
      writesOf s.current_pwm_duty
        (rampDuties s.current_pwm_duty (env.mapSpeed state speed) 100 ++
          [finalDuty env state speed]) := by
  rw [setState_dutyWrites, softStart_eq, if_pos ⟨hst, hT⟩, rampLoop_dutyWrites,
    set_output_dutyWrites, rampLoop_duty, writesOf_append]
  rfl

theorem softStart_ramp_dutyWrites (state : SpindleState) (T : Nat) (s : PWM)
    (hst : state ≠ SpindleState.Disable) (hT : s.current_pwm_duty < T) :
    dutyWrites (softStart state T s).2 =
      writesOf s.current_pwm_duty (rampDuties s.current_pwm_duty T 100) := by
  rw [softStart_eq, if_pos ⟨hst, hT⟩, rampLoop_dutyWrites]

theorem softStart_ramp_suspends (state : SpindleState) (T : Nat) (s : PWM)
    (hst : state ≠ SpindleState.Disable) (hT : s.current_pwm_duty < T) :
    suspends (softStart state T s).2 = List.replicate 100 20 := by
  rw [softStart_eq, if_pos ⟨hst, hT⟩, rampLoop_suspends, rampDuties_length]


/-! ## Claims on the soft-start ramp -/

/-- What a `setState` that ramps writes, outside the rate-adjusted `Ccw` case. -/
theorem setState_ramp_writes (env : Env) (state : SpindleState) (speed : Nat) (s : PWM) (T : Nat)
    (hmap : env.mapSpeed state speed = T) (hst : state ≠ SpindleState.Disable)
    (hra : ¬(env.isRateAdjusted = true ∧ state = SpindleState.Ccw))
    (hgt : s.current_pwm_duty < T) (hd : T - s.current_pwm_duty ≤ 13107200) (hT : T < 2 ^ 32) :
    dutyWrites (setState env false state speed s).2 =
      writesOf s.current_pwm_duty (rampDuties s.current_pwm_duty T 100 ++ [T]) ∧
    List.Pairwise (· ≤ ·) (rampDuties s.current_pwm_duty T 100 ++ [T]) ∧
    (∀ v ∈ rampDuties s.current_pwm_duty T 100 ++ [T], s.current_pwm_duty ≤ v ∧ v ≤ T) ∧
    List.Pairwise (· < ·) (dutyWrites (setState env false state speed s).2) ∧
    (∀ w ∈ dutyWrites (setState env false state speed s).2, s.current_pwm_duty < w ∧ w ≤ T) ∧
    lastDutyWrite (setState env false state speed s).2 = some T := by
  have hfin : finalDuty env state speed = T := by
    unfold finalDuty
    rw [if_neg hra, hmap]
  have hw : dutyWrites (setState env false state speed s).2 =
      writesOf s.current_pwm_duty (rampDuties s.current_pwm_duty T 100 ++ [T]) := by
    rw [setState_ramp_dutyWrites env state speed s hst (by rw [hmap]; exact hgt), hmap, hfin]
  have hb := rampDuties_bounds s.current_pwm_duty T hgt hd hT
  have hsorted : List.Pairwise (· ≤ ·) (rampDuties s.current_pwm_duty T 100 ++ [T]) := by
    rw [List.pairwise_append]
    refine ⟨rampDuties_sorted s.current_pwm_duty T hgt hd hT, List.pairwise_singleton _ _, ?_⟩
    intro a ha b hb2
    rw [List.mem_singleton] at hb2
    subst hb2
    exact (hb a ha).2
  have hall : ∀ v ∈ rampDuties s.current_pwm_duty T 100 ++ [T],
      s.current_pwm_duty ≤ v ∧ v ≤ T := by
    intro v hv
    rcases List.mem_append.mp hv with h | h
    · exact hb v h
    · rw [List.mem_singleton] at h
      subst h
      exact ⟨le_of_lt hgt, le_refl _⟩
  have hws := writesOf_sorted s.current_pwm_duty _ (fun x hx => (hall x hx).1) hsorted
  have hlast := writesOf_getLast s.current_pwm_duty
    (rampDuties s.current_pwm_duty T 100 ++ [T])
  rw [List.getLast?_append, List.getLast?_singleton] at hlast
  simp only [Option.or_some, Option.getD_some] at hlast
  refine ⟨hw, hsorted, hall, ?_, ?_, ?_⟩
  · rw [hw]; exact hws.1
  · rw [hw]
    intro w hw2
    exact ⟨(hws.2 w hw2).1, (hall w (hws.2 w hw2).2).2⟩
  · unfold lastDutyWrite
    rw [hw]
    cases hc : (writesOf s.current_pwm_duty
        (rampDuties s.current_pwm_duty T 100 ++ [T])).getLast? with
    | none =>
      rw [hc] at hlast
      simp only [Option.getD_none] at hlast
      omega
    | some w =>
      rw [hc] at hlast
      simp only [Option.getD_some] at hlast
      rw [hlast]


set_option maxRecDepth 100000 in
/-- C3, as stated, fails.  The ramp passes 100 duties to `set_output`, but a
duty reaches the output line only when it differs from the current one: for
target 1 from duty 0 the call writes once, not 100 times.  For target 105 the
last ramp step writes 104 and the write after the ramp adds 105, 101 writes in
all.  For target 13107201 the last ramp step writes 13107202, above the target,
and the write after the ramp then lowers the duty. -/
theorem setState_ramp_hundred_writes_counterexample :
    (dutyWrites (softStart SpindleState.Cw 1 (stoppedAt 0)).2 = [1] ∧
      dutyWrites (setState (directEnv false) false SpindleState.Cw 1 (stoppedAt 0)).2 = [1] ∧
      (dutyWrites (softStart SpindleState.Cw 1 (stoppedAt 0)).2).length ≠ 100) ∧
    ((dutyWrites (softStart SpindleState.Cw 105 (stoppedAt 0)).2).getLast? = some 104 ∧
      (dutyWrites
        (setState (directEnv false) false SpindleState.Cw 105 (stoppedAt 0)).2).length = 101) ∧
    (dutyWrites (softStart SpindleState.Cw 13107201 (stoppedAt 0)).2).getLast? =
      some 13107202 := by
  decide

set_option maxRecDepth 100000 in
/-- C4, as stated, fails: from duty 0 with mapped target 13107201 the last
ramp step passes and writes 13107202, above the target, and the write that
follows lowers the duty to 13107201. -/
theorem setState_ramp_monotone_counterexample :
    (directEnv false).mapSpeed SpindleState.Cw 13107201 = 13107201 ∧
    (stoppedAt 0).current_pwm_duty < 13107201 ∧
    rampDuty 0 13107201 100 100 = 13107202 ∧
    (dutyWrites
      (setState (directEnv false) false SpindleState.Cw 13107201 (stoppedAt 0)).2).drop 98 =
      [12976130, 13107202, 13107201] := by
  decide

/-- C4, amended: for a `setState` that is not aborted, with a state other than
`Disable`, outside the rate-adjusted `Ccw` case, whose mapped target `T` (a
`uint32_t`) exceeds the starting duty `s` by at most `13107200 = 100 * 2^17`:
the duties passed to `set_output` during the call, the 100 ramp steps and then
`T`, never decrease, lie in `[s, T]` and end at `T`; the duties written to the
output line are those among them that differ from the current duty, they
increase strictly, lie in `(s, T]` and end at `T`; `_current_pwm_duty` ends at
`T`. -/
theorem setState_ramp_monotone (env : Env) (state : SpindleState) (speed : Nat) (s : PWM)
    (T : Nat) (hmap : env.mapSpeed state speed = T) (hst : state ≠ SpindleState.Disable)
    (hra : ¬(env.isRateAdjusted = true ∧ state = SpindleState.Ccw))
    (hgt : s.current_pwm_duty < T) (hd : T - s.current_pwm_duty ≤ 13107200) (hT : T < 2 ^ 32) :
    dutyWrites (setState env false state speed s).2 =
      writesOf s.current_pwm_duty (rampDuties s.current_pwm_duty T 100 ++ [T]) ∧
    List.Pairwise (· ≤ ·) (rampDuties s.current_pwm_duty T 100 ++ [T]) ∧
    (∀ v ∈ rampDuties s.current_pwm_duty T 100 ++ [T], s.current_pwm_duty ≤ v ∧ v ≤ T) ∧
    (rampDuties s.current_pwm_duty T 100 ++ [T]).getLast? = some T ∧
    List.Pairwise (· < ·) (dutyWrites (setState env false state speed s).2) ∧
    (∀ w ∈ dutyWrites (setState env false state speed s).2, s.current_pwm_duty < w ∧ w ≤ T) ∧
    lastDutyWrite (setState env false state speed s).2 = some T ∧
    (setState env false state speed s).1.current_pwm_duty = T := by
  have h := setState_ramp_writes env state speed s T hmap hst hra hgt hd hT
  refine ⟨h.1, h.2.1, h.2.2.1, ?_, h.2.2.2.1, h.2.2.2.2.1, h.2.2.2.2.2, ?_⟩
  · rw [List.getLast?_append, List.getLast?_singleton]
    rfl
  · rw [setState_eq]
    simp only [set_output_duty]
    unfold finalDuty
    rw [if_neg hra, hmap]

/-- Witness of C4: `setState(Cw, 5000)` from duty 3000. -/
theorem setState_ramp_monotone_witness :
    ((directEnv false).mapSpeed SpindleState.Cw 5000 = 5000 ∧
      SpindleState.Cw ≠ SpindleState.Disable ∧
      ¬((directEnv false).isRateAdjusted = true ∧ SpindleState.Cw = SpindleState.Ccw) ∧
      (stoppedAt 3000).current_pwm_duty < 5000 ∧
      5000 - (stoppedAt 3000).current_pwm_duty ≤ 13107200 ∧ 5000 < 2 ^ 32) ∧
    List.Pairwise (· < ·)
      (dutyWrites (setState (directEnv false) false SpindleState.Cw 5000 (stoppedAt 3000)).2) ∧
    lastDutyWrite (setState (directEnv false) false SpindleState.Cw 5000 (stoppedAt 3000)).2 =
      some 5000 :=
  ⟨by decide,
   (setState_ramp_monotone (directEnv false) SpindleState.Cw 5000 (stoppedAt 3000) 5000
      (by decide) (by decide) (by decide) (by decide) (by decide) (by decide)).2.2.2.2.1,
   (setState_ramp_monotone (directEnv false) SpindleState.Cw 5000 (stoppedAt 3000) 5000
      (by decide) (by decide) (by decide) (by decide) (by decide) (by decide)).2.2.2.2.2.2.1⟩

/-! ## Claim on the duty record over sequences of calls -/

/-- C7, as stated, fails: after `init`, a duty write of 5 through
`setSpeedfromISR` and a second `init`, `_current_pwm_duty` is 0 while the duty
written last to the output line is 5. -/
theorem duty_tracked_counterexample :
    lastDutyWrite (runCalls (directEnv false)
      [Call.init, Call.setSpeedfromISR SpindleState.Cw 5, Call.init] (stoppedAt 0)).2 = some 5 ∧
    (runCalls (directEnv false)
      [Call.init, Call.setSpeedfromISR SpindleState.Cw 5, Call.init]
      (stoppedAt 0)).1.current_pwm_duty = 0 ∧
    ¬ DutyTracked
      (runCalls (directEnv false)
        [Call.init, Call.setSpeedfromISR SpindleState.Cw 5, Call.init] (stoppedAt 0)).1
      (runCalls (directEnv false)
        [Call.init, Call.setSpeedfromISR SpindleState.Cw 5, Call.init] (stoppedAt 0)).2 := by
  decide

/-- C7, amended: over every sequence of `setState`, `setSpeedfromISR`,
`set_output` and `deinit` calls, started where `_current_pwm_duty` is the duty
written last to the output line (or none was written yet), after each call
`_current_pwm_duty` is the duty written last to the output line; `init` writes
no duty and sets `_current_pwm_duty` to 0. -/
theorem duty_tracked_without_init (env : Env) (calls : List Call) (s : PWM) (tr : List Event)
    (hc : Call.init ∉ calls) (h : DutyTracked s tr) :
    (∀ k, DutyTracked (runCalls env (calls.take k) s).1
      (tr ++ (runCalls env (calls.take k) s).2)) ∧
    (init env s).1.current_pwm_duty = 0 ∧ dutyWrites (init env s).2 = [] := by
  refine ⟨?_, ?_, ?_⟩
  · intro k
    exact dutyTracked_runCalls env (calls.take k) s tr
      (fun hm => hc (List.mem_of_mem_take hm)) h
  · unfold init
    simp only
    split <;> rfl
  · by_cases h3 : s.speeds_size = 0 <;>
      cases h1 : env.output_defined <;> cases h2 : env.output_can_pwm <;>
      simp [init, h1, h2, h3, dutyWrites]

/-- Witness of C7: a ramped start, an interrupt-time duty, a direct write and a
teardown, from a fresh record. -/
theorem duty_tracked_without_init_witness :
    (Call.init ∉ [Call.setState false SpindleState.Cw 300, Call.setSpeedfromISR SpindleState.Cw 7,
        Call.set_output 9, Call.deinit false] ∧
      DutyTracked (stoppedAt 0) []) ∧
    DutyTracked
      (runCalls (directEnv false) (List.take 4 [Call.setState false SpindleState.Cw 300,
        Call.setSpeedfromISR SpindleState.Cw 7, Call.set_output 9, Call.deinit false])
        (stoppedAt 0)).1
      ([] ++ (runCalls (directEnv false) (List.take 4 [Call.setState false SpindleState.Cw 300,
        Call.setSpeedfromISR SpindleState.Cw 7, Call.set_output 9, Call.deinit false])
        (stoppedAt 0)).2) :=
  ⟨by decide,
   (duty_tracked_without_init (directEnv false) [Call.setState false SpindleState.Cw 300,
      Call.setSpeedfromISR SpindleState.Cw 7, Call.set_output 9, Call.deinit false]
      (stoppedAt 0) [] (by decide) (by decide)).1 4⟩


/-! ## Enable and direction commands -/

theorem set_output_enableWrites (d : Nat) (s : PWM) :
    enableWrites (set_output d s).2 = [] := by
  rw [set_output_events]
  split <;> rfl

theorem rampLoop_enableWrites (iv : Nat) (ds : List Nat) (s : PWM) :
    enableWrites (rampLoop iv ds s).2 = [] := by
  induction ds generalizing s with
  | nil => rfl
  | cons d rest ih =>
    rw [rampLoop_cons]
    simp [enableWrites_append, set_output_enableWrites, enableWrites, ih]

theorem softStart_enableWrites (state : SpindleState) (dev_speed : Nat) (s : PWM) :
    enableWrites (softStart state dev_speed s).2 = [] := by
  rw [softStart_eq]
  split
  · exact rampLoop_enableWrites _ _ _
  · rfl

/-- The calls of `setState` before the soft start: the configuration error and
the direction command. -/
theorem setState_head_dutyWrites (env : Env) (state : SpindleState) :
    dutyWrites ((if !env.output_defined then [Event.log_config_error_not_defined] else []) ++
      (if state ≠ SpindleState.Disable
        then [Event.set_direction (decide (state = SpindleState.Cw))] else [])) = [] := by
  rw [dutyWrites_append]
  split <;> split <;> rfl

theorem setState_head_enableWrites (env : Env) (state : SpindleState) :
    enableWrites ((if !env.output_defined then [Event.log_config_error_not_defined] else []) ++
      (if state ≠ SpindleState.Disable
        then [Event.set_direction (decide (state = SpindleState.Cw))] else [])) = [] := by
  rw [enableWrites_append]
  split <;> split <;> rfl

theorem setState_head_directionWrites (env : Env) (state : SpindleState) :
    directionWrites ((if !env.output_defined then [Event.log_config_error_not_defined]
        else []) ++
      (if state ≠ SpindleState.Disable
        then [Event.set_direction (decide (state = SpindleState.Cw))] else [])) =
      if state ≠ SpindleState.Disable then [decide (state = SpindleState.Cw)] else [] := by
  rw [directionWrites_append]
  split <;> split <;> rfl

theorem setState_enableWrites (env : Env) (state : SpindleState) (speed : Nat) (s : PWM) :
    enableWrites (setState env false state speed s).2 =
      [decide (state ≠ SpindleState.Disable)] := by
  rw [setState_eq]
  simp only
  rw [enableWrites_append, enableWrites_append, enableWrites_append,
    setState_head_enableWrites, softStart_enableWrites, set_output_enableWrites]
  rfl

theorem setState_directionWrites (env : Env) (state : SpindleState) (speed : Nat) (s : PWM) :
    directionWrites (setState env false state speed s).2 =
      if state ≠ SpindleState.Disable then [decide (state = SpindleState.Cw)] else [] := by
  rw [setState_eq]
  simp only
  rw [directionWrites_append, directionWrites_append, directionWrites_append,
    setState_head_directionWrites, softStart_directionWrites, set_output_directionWrites]
  simp [directionWrites]

/-! ## Position of a duty write in a trace -/

theorem dutyWrites_cons_nil (e : Event) (l : List Event) (h : dutyWrites (e :: l) = []) :
    dutyWrites l = [] ∧ ∀ d, e ≠ Event.setDuty d := by
  cases e <;> simp_all [dutyWrites]

/-- A duty write of `X ++ Y` lies in `Y` when `X` has none. -/
theorem dutyWrite_split_left (X Y a b : List Event) (d : Nat) (hX : dutyWrites X = [])
    (h : X ++ Y = a ++ Event.setDuty d :: b) :
    ∃ a', a = X ++ a' ∧ Y = a' ++ Event.setDuty d :: b := by
  induction X generalizing a with
  | nil => exact ⟨a, rfl, h⟩
  | cons x X' ih =>
    have hx := dutyWrites_cons_nil x X' hX
    cases a with
    | nil =>
      simp only [List.cons_append, List.nil_append, List.cons.injEq] at h
      exact absurd h.1 (hx.2 d)
    | cons a0 a1 =>
      simp only [List.cons_append, List.cons.injEq] at h
      obtain ⟨a', ha, hY⟩ := ih a1 hx.1 h.2
      exact ⟨a', by rw [h.1, ha]; rfl, hY⟩

/-- A duty write of `Y ++ E` lies in `Y` when `E` has none. -/
theorem dutyWrite_split_right (Y E a b : List Event) (d : Nat) (hE : dutyWrites E = [])
    (h : Y ++ E = a ++ Event.setDuty d :: b) :
    ∃ b', b = b' ++ E ∧ Y = a ++ Event.setDuty d :: b' := by
  induction Y generalizing a with
  | nil =>
    rw [List.nil_append] at h
    rw [h, dutyWrites_append] at hE
    simp [dutyWrites] at hE
  | cons y Y' ih =>
    cases a with
    | nil =>
      simp only [List.cons_append, List.nil_append, List.cons.injEq] at h
      exact ⟨Y', h.2.symm, by rw [h.1]; rfl⟩
    | cons a0 a1 =>
      simp only [List.cons_append, List.cons.injEq] at h
      obtain ⟨b', hb, hY⟩ := ih a1 h.2
      exact ⟨b', hb, by rw [h.1, hY]; rfl⟩



/-! ## Claims on the enable and direction commands -/

/-- C11: a `setState` that is not aborted gives exactly one enable-line
command, and that command asks for the line to be active exactly when the
requested state is not `Disable`. -/
theorem setState_one_enable (env : Env) (state : SpindleState) (speed : Nat) (s : PWM) :
    enableWrites (setState env false state speed s).2 =
      [decide (state ≠ SpindleState.Disable)] ∧
    enableWrites (setState env false state speed s).2 =
      (if state = SpindleState.Disable then [false] else [true]) := by
  refine ⟨setState_enableWrites env state speed s, ?_⟩
  rw [setState_enableWrites]
  cases state <;> rfl

/-- C12: in the trace of a `setState` that is not aborted, the direction-line
command is present exactly when the state is not `Disable`, with the value
"state is `Cw`"; there is one enable-line command; and at every duty write of
the trace, all the direction-line commands are before it and all the
enable-line commands are after it. -/
theorem setState_order (env : Env) (state : SpindleState) (speed : Nat) (s : PWM) :
    directionWrites (setState env false state speed s).2 =
      (if state ≠ SpindleState.Disable then [decide (state = SpindleState.Cw)] else []) ∧
    enableWrites (setState env false state speed s).2 =
      [decide (state ≠ SpindleState.Disable)] ∧
    ∀ (a b : List Event) (d : Nat),
      (setState env false state speed s).2 = a ++ Event.setDuty d :: b →
        directionWrites a = directionWrites (setState env false state speed s).2 ∧
        directionWrites b = [] ∧
        enableWrites a = [] ∧
        enableWrites b = enableWrites (setState env false state speed s).2 := by
  refine ⟨setState_directionWrites env state speed s, setState_enableWrites env state speed s, ?_⟩
  intro a b d h
  have hd := setState_directionWrites env state speed s
  have he := setState_enableWrites env state speed s
  rw [h, directionWrites_append] at hd
  rw [h, enableWrites_append] at he
  rw [h, directionWrites_append, enableWrites_append]
  rw [setState_eq] at h
  simp only at h
  rw [List.append_assoc, List.append_assoc] at h
  obtain ⟨a', ha, h2⟩ := dutyWrite_split_left _ _ a b d (setState_head_dutyWrites env state) h
  rw [← List.append_assoc] at h2
  obtain ⟨b', hb, h3⟩ := dutyWrite_split_right _
    [Event.set_enable (decide (state ≠ SpindleState.Disable)), Event.spindleDelay state speed]
    a' b d rfl h2
  have hmd : directionWrites ((softStart state (env.mapSpeed state speed) s).2 ++
      (set_output (finalDuty env state speed)
        (softStart state (env.mapSpeed state speed) s).1).2) = [] := by
    rw [directionWrites_append, softStart_directionWrites, set_output_directionWrites]
    rfl
  have hme : enableWrites ((softStart state (env.mapSpeed state speed) s).2 ++
      (set_output (finalDuty env state speed)
        (softStart state (env.mapSpeed state speed) s).1).2) = [] := by
    rw [enableWrites_append, softStart_enableWrites, set_output_enableWrites]
    rfl
  rw [h3, directionWrites_append] at hmd
  rw [h3, enableWrites_append] at hme
  have hb1 : directionWrites b = [] := by
    have : directionWrites (Event.setDuty d :: b') = [] := (List.append_eq_nil.mp hmd).2
    rw [hb, directionWrites_append]
    simp only [directionWrites] at this
    rw [this]
    rfl
  have ha1 : enableWrites a = [] := by
    rw [ha, enableWrites_append, setState_head_enableWrites, (List.append_eq_nil.mp hme).1]
    rfl
  refine ⟨?_, hb1, ha1, ?_⟩
  · simp [directionWrites, hb1]
  · simp [enableWrites, ha1]


/-! ## Claims on the interrupt path, teardown and `is_reversable` -/

/-- C14: `setSpeedfromISR(d)` gives one enable-line command, active exactly when
the modal spindle mode is not `Disable`, and then writes `d` through
`set_output`: one duty write when `d` differs from `_current_pwm_duty`, none
when it equals it; it makes no other call, so it neither suspends nor ramps,
and leaves `_current_pwm_duty = d` with every other field unchanged.  The abort
signal is not an input of the operation. -/
theorem setSpeedfromISR_contract (modal : SpindleState) (d : Nat) (s : PWM) :
    (setSpeedfromISR modal d s).2 =
      Event.set_enable (decide (modal ≠ SpindleState.Disable)) ::
        (if d = s.current_pwm_duty then [] else [Event.setDuty d]) ∧
    enableWrites (setSpeedfromISR modal d s).2 =
      (if modal = SpindleState.Disable then [false] else [true]) ∧
    dutyWrites (setSpeedfromISR modal d s).2 = (if d = s.current_pwm_duty then [] else [d]) ∧
    suspends (setSpeedfromISR modal d s).2 = [] ∧
    (setSpeedfromISR modal d s).1 = { s with current_pwm_duty := d } ∧
    (setSpeedfromISR modal d s).1.current_pwm_duty = d := by
  have hev : (setSpeedfromISR modal d s).2 =
      Event.set_enable (decide (modal ≠ SpindleState.Disable)) ::
        (if d = s.current_pwm_duty then [] else [Event.setDuty d]) := by
    rw [← set_output_events]
    rfl
  have hst : (setSpeedfromISR modal d s).1 = { s with current_pwm_duty := d } := by
    rw [← set_output_state]
    rfl
  refine ⟨hev, ?_, ?_, ?_, hst, ?_⟩
  · rw [hev]
    cases modal <;> split <;> rfl
  · rw [hev]
    split <;> rfl
  · rw [hev]
    split <;> rfl
  · rw [hst]

/-- C15, as stated, fails: with abort active, `deinit` on a running spindle
gives no enable-line command at all; its whole trace is the three
reconfigurations to input mode. -/
theorem deinit_abort_counterexample :
    enableWrites (deinit (directEnv false) true
      { is_reversable := true, current_state := SpindleState.Cw, current_pwm_duty := 500,
        speeds_size := 2 }).2 = [] ∧
    (deinit (directEnv false) true
      { is_reversable := true, current_state := SpindleState.Cw, current_pwm_duty := 500,
        speeds_size := 2 }).2 =
      [Event.setAttr PinId.output_pin PinAttr.Input,
        Event.setAttr PinId.enable_pin PinAttr.Input,
        Event.setAttr PinId.direction_pin PinAttr.Input] := by
  decide

/-- C15, amended: `deinit` first runs `setState(Disable, 0)` and only afterwards
reconfigures the output, enable and direction lines to input mode, so that
after `deinit` all three lines are in input mode.  With abort inactive the
state transition gives one enable-line command, which deasserts the line; with
abort active the state transition makes no call at all. -/
theorem deinit_order (env : Env) (abort : Bool) (s : PWM) :
    (deinit env abort s).2 =
      (setState env abort SpindleState.Disable 0 s).2 ++
        [Event.setAttr PinId.output_pin PinAttr.Input,
          Event.setAttr PinId.enable_pin PinAttr.Input,
          Event.setAttr PinId.direction_pin PinAttr.Input] ∧
    enableWrites (setState env abort SpindleState.Disable 0 s).2 =
      (if abort = true then [] else [false]) ∧
    (∀ pin before, pinAttrAfter pin before
      (setState env abort SpindleState.Disable 0 s).2 = before) ∧
    (∀ pin before, pinAttrAfter pin before (deinit env abort s).2 = some PinAttr.Input) := by
  have hno : ∀ pin before, pinAttrAfter pin before
      (setState env abort SpindleState.Disable 0 s).2 = before := by
    intro pin before
    cases abort with
    | true => simp [setState_abort_noop, pinAttrAfter]
    | false =>
      rw [setState_eq, softStart_skip _ _ _ (Or.inl rfl), set_output_events]
      by_cases h1 : finalDuty env SpindleState.Disable 0 = s.current_pwm_duty <;>
        cases h2 : env.output_defined <;> simp [pinAttrAfter, h1]
  have hev : (deinit env abort s).2 =
      (setState env abort SpindleState.Disable 0 s).2 ++
        [Event.setAttr PinId.output_pin PinAttr.Input,
          Event.setAttr PinId.enable_pin PinAttr.Input,
          Event.setAttr PinId.direction_pin PinAttr.Input] := rfl
  refine ⟨hev, ?_, hno, ?_⟩
  · cases abort with
    | true => simp [setState_abort_noop, enableWrites]
    | false => rw [setState_enableWrites]; rfl
  · intro pin before
    have h := hno pin before
    rw [hev]
    unfold pinAttrAfter at h ⊢
    rw [List.foldl_append, h]
    cases pin <;> simp



/-! ## Frame of `is_reversable` -/

theorem setState_is_reversable (env : Env) (abort : Bool) (state : SpindleState) (speed : Nat)
    (s : PWM) : (setState env abort state speed s).1.is_reversable = s.is_reversable := by
  cases abort with
  | true => rw [setState_abort_noop]
  | false =>
    rw [setState_eq]
    simp only
    rw [set_output_state, softStart_frame]

theorem runCall_is_reversable (env : Env) (c : Call) (s : PWM) (hc : c ≠ Call.init) :
    (runCall env c s).1.is_reversable = s.is_reversable := by
  cases c with
  | init => exact absurd rfl hc
  | setState abort state speed => exact setState_is_reversable env abort state speed s
  | setSpeedfromISR modal dev_speed =>
    show (set_output dev_speed s).1.is_reversable = s.is_reversable
    rw [set_output_state]
  | set_output duty =>
    show (set_output duty s).1.is_reversable = s.is_reversable
    rw [set_output_state]
  | deinit abort => exact setState_is_reversable env abort SpindleState.Disable 0 s

theorem runCalls_is_reversable (env : Env) (calls : List Call) (s : PWM)
    (hc : Call.init ∉ calls) : (runCalls env calls s).1.is_reversable = s.is_reversable := by
  induction calls generalizing s with
  | nil => rfl
  | cons c rest ih =>
    have hc1 : c ≠ Call.init := fun e => hc (by simp [e])
    have hc2 : Call.init ∉ rest := fun e => hc (by simp [e])
    have h := ih (runCall env c s).1 hc2
    rw [runCall_is_reversable env c s hc1] at h
    exact h

/-- C16: after `init`, `is_reversable` is true exactly when the direction line
is bound; no sequence of `setState`, `setSpeedfromISR`, `set_output` and
`deinit` calls changes it, after any of its calls; `init` alone sets it, from
the binding of the direction line at that time. -/
theorem is_reversable_fixed (env : Env) (calls : List Call) (s : PWM)
    (hc : Call.init ∉ calls) :
    (init env s).1.is_reversable = env.direction_defined ∧
    (∀ k, (runCalls env (calls.take k) s).1.is_reversable = s.is_reversable) ∧
    (∀ k, (runCalls env (calls.take k) (init env s).1).1.is_reversable =
      env.direction_defined) := by
  have hi : (init env s).1.is_reversable = env.direction_defined := by
    unfold init
    simp only
    split <;> rfl
  refine ⟨hi, ?_, ?_⟩
  · intro k
    exact runCalls_is_reversable env _ s (fun hm => hc (List.mem_of_mem_take hm))
  · intro k
    rw [runCalls_is_reversable env _ _ (fun hm => hc (List.mem_of_mem_take hm)), hi]

/-- Witness of C16: with the direction line unbound, `is_reversable` is false
after `init` and still false after a ramped start, an interrupt-time duty, a
direct write and a teardown. -/
theorem is_reversable_fixed_witness :
    Call.init ∉ [Call.setState false SpindleState.Cw 5000,
      Call.setSpeedfromISR SpindleState.Cw 7, Call.set_output 9, Call.deinit false] ∧
    (init { directEnv false with direction_defined := false }
      (stoppedAt 0)).1.is_reversable = false ∧
    (runCalls { directEnv false with direction_defined := false }
      (List.take 4 [Call.setState false SpindleState.Cw 5000,
        Call.setSpeedfromISR SpindleState.Cw 7, Call.set_output 9, Call.deinit false])
      (init { directEnv false with direction_defined := false }
        (stoppedAt 0)).1).1.is_reversable = false :=
  ⟨by decide,
   (is_reversable_fixed { directEnv false with direction_defined := false }
      [Call.setState false SpindleState.Cw 5000, Call.setSpeedfromISR SpindleState.Cw 7,
        Call.set_output 9, Call.deinit false] (stoppedAt 0) (by decide)).1,
   (is_reversable_fixed { directEnv false with direction_defined := false }
      [Call.setState false SpindleState.Cw 5000, Call.setSpeedfromISR SpindleState.Cw 7,
        Call.set_output 9, Call.deinit false] (stoppedAt 0) (by decide)).2.2 4⟩

/-! ## Claim on the length of the ramp -/

/-- C17: a `setState` whose entry check finds abort inactive, with a state other
than `Disable` and a mapped target above `_current_pwm_duty`, runs the ramp loop
for exactly `2000 / 20 = 100` iterations, each with one suspension of 20, 2000
in all, whatever the duty increase; the values that the abort signal takes
after the entry check do not enter the result, the signal being read at entry
only. -/
theorem setStateAt_ramp_completes (env : Env) (abortAt : Nat → Bool) (state : SpindleState)
    (speed : Nat) (s : PWM) (h0 : abortAt 0 = false) (hst : state ≠ SpindleState.Disable)
    (hgt : s.current_pwm_duty < env.mapSpeed state speed) :
    suspends (setStateAt env abortAt state speed s).2 = List.replicate 100 20 ∧
    (suspends (setStateAt env abortAt state speed s).2).sum = 2000 ∧
    (rampDuties s.current_pwm_duty (env.mapSpeed state speed) (2000 / 20)).length = 100 ∧
    (∀ later : Nat → Bool, later 0 = false →
      setStateAt env later state speed s = setStateAt env abortAt state speed s) := by
  have hs : suspends (setStateAt env abortAt state speed s).2 = List.replicate 100 20 := by
    unfold setStateAt
    rw [h0, setState_suspends, softStart_ramp_suspends state _ s hst hgt]
  refine ⟨hs, ?_, rampDuties_length _ _ _, ?_⟩
  · rw [hs]
    simp
  · intro later hl
    unfold setStateAt
    rw [hl, h0]

/-- Witness of C17: abort becomes active right after the entry check and stays
active; the ramp to duty 1000 still takes its 100 suspensions. -/
theorem setStateAt_ramp_completes_witness :
    ((fun t : Nat => decide (0 < t)) 0 = false ∧ SpindleState.Cw ≠ SpindleState.Disable ∧
      (stoppedAt 0).current_pwm_duty < (directEnv false).mapSpeed SpindleState.Cw 1000) ∧
    suspends (setStateAt (directEnv false) (fun t : Nat => decide (0 < t)) SpindleState.Cw 1000
      (stoppedAt 0)).2 = List.replicate 100 20 :=
  ⟨by decide,
   (setStateAt_ramp_completes (directEnv false) (fun t : Nat => decide (0 < t))
      SpindleState.Cw 1000 (stoppedAt 0) (by decide) (by decide) (by decide)).1⟩



/-! ## Claims on the ramp of a rate-adjusted spindle and on the ramp bounds -/

set_option maxRecDepth 100000 in
/-- C13, at the failing input: for a rate-adjusted spindle with off duty 0, the
call `setState(Ccw, 1000)` from duty 0 ramps: it writes the duties 10, 20, up
to 1000 to the output line, and only then the off duty 0. -/
theorem setState_rate_adjusted_ccw_ramps :
    (directEnv true).isRateAdjusted = true ∧ (directEnv true).offSpeed = 0 ∧
    (directEnv true).mapSpeed SpindleState.Ccw 1000 = 1000 ∧
    dutyWrites (setState (directEnv true) false SpindleState.Ccw 1000 (stoppedAt 0)).2 =
      (List.range' 1 100).map (fun i => 10 * i) ++ [0] ∧
    1000 ∈ dutyWrites (setState (directEnv true) false SpindleState.Ccw 1000 (stoppedAt 0)).2 ∧
    suspends (setState (directEnv true) false SpindleState.Ccw 1000 (stoppedAt 0)).2 =
      List.replicate 100 20 := by
  decide

theorem roundHalfEven_lower (n den : Nat) (hden : 0 < den) :
    2 * n ≤ 2 * (den * roundHalfEven n den) + den := by
  have h1 := Nat.div_add_mod n den
  have h2 := Nat.mod_lt n hden
  unfold roundHalfEven
  simp only
  split_ifs
  · omega
  · rw [Nat.mul_add]; omega
  · omega
  · rw [Nat.mul_add]; omega

/-- The rounded quotient is below the exact one by at most half a quantum. -/
theorem round24Aux_lower (fuel n den K : Nat) (hden : 0 < den) (h : n / den < 2 ^ 24 * 2 ^ K) :
    2 * n ≤ 2 * (den * round24Aux fuel n den) + den * 2 ^ K := by
  induction fuel generalizing den K with
  | zero =>
    have h1 := roundHalfEven_lower n den hden
    have h2 : den ≤ den * 2 ^ K := Nat.le_mul_of_pos_right _ (by positivity)
    rw [round24Aux_zero]
    omega
  | succ f ih =>
    rw [round24Aux_step]
    split
    · have h1 := roundHalfEven_lower n den hden
      have h2 : den ≤ den * 2 ^ K := Nat.le_mul_of_pos_right _ (by positivity)
      omega
    · next hq =>
      cases K with
      | zero => simp at h; omega
      | succ K =>
        have h2 : n / (2 * den) < 2 ^ 24 * 2 ^ K := by
          rw [Nat.mul_comm, ← Nat.div_div_eq_div_mul]
          rw [pow_succ] at h
          omega
        have h3 := ih (2 * den) K (by omega) h2
        have e1 : den * (2 * round24Aux f n (2 * den)) = 2 * den * round24Aux f n (2 * den) := by
          ring
        have e2 : den * 2 ^ (K + 1) = 2 * den * 2 ^ K := by ring
        rw [e1, e2]
        exact h3

theorem round24_lower (n den K : Nat) (hden : 0 < den) (h : n / den < 2 ^ 24 * 2 ^ K) :
    2 * n ≤ 2 * (den * round24 n den) + den * 2 ^ K :=
  round24Aux_lower n n den K hden h

/-- The rounded quotient exceeds the exact one by at most one part in `2^24`,
when the exact one is at least `2^23`. -/
theorem round24Aux_upper_rel (fuel n den : Nat) (h : 2 ^ 23 * den ≤ n) :
    2 ^ 24 * (den * round24Aux fuel n den) ≤ (2 ^ 24 + 1) * n := by
  induction fuel generalizing den with
  | zero =>
    have h1 := roundHalfEven_upper n den
    rw [round24Aux_zero]
    norm_num at h ⊢
    omega
  | succ f ih =>
    rw [round24Aux_step]
    split
    · have h1 := roundHalfEven_upper n den
      norm_num at h ⊢
      omega
    · next hq =>
      have hq2 : 2 ^ 24 ≤ n / den := by omega
      have hden : 0 < den := by
        rcases Nat.eq_zero_or_pos den with h0 | h0
        · subst h0; simp at hq2
        · exact h0
      have h2 : 2 ^ 23 * (2 * den) ≤ n := by
        have := (Nat.le_div_iff_mul_le hden).mp hq2
        norm_num at this ⊢
        omega
      have h3 := ih (2 * den) h2
      have e1 : den * (2 * round24Aux f n (2 * den)) = 2 * den * round24Aux f n (2 * den) := by
        ring
      rw [e1]
      exact h3

theorem round24_upper_rel (n : Nat) (h : 2 ^ 23 ≤ n) :
    2 ^ 24 * round24 n 1 ≤ (2 ^ 24 + 1) * n := by
  have := round24Aux_upper_rel n n 1 (by omega)
  simpa [round24] using this


/-! ## The ramp arithmetic: distance to the exact interpolation -/

/-- The binary32 quotient by 100 is within `2^-8` of the exact quotient, up to
the dividend `100 * 2^17`. -/
theorem f32Div_hundred_near (d : Nat) (h1 : 1 ≤ d) (h2 : d ≤ 13107200) :
    100 * f32Div d 100 ≤ d * 2 ^ 31 + 100 * 2 ^ 23 ∧
    d * 2 ^ 31 ≤ 100 * f32Div d 100 + 100 * 2 ^ 23 := by
  have h100 : f32OfNat 100 = 100 := f32OfNat_exact 100 (by norm_num)
  unfold f32Div f32Frac
  rw [h100]
  rcases Nat.lt_or_ge d 13107200 with hlt | hge
  · have hq : d * 2 ^ 31 / 100 < 2 ^ 24 * 2 ^ 24 := by
      rw [Nat.div_lt_iff_lt_mul (by norm_num)]
      norm_num
      omega
    have hu := round24_upper (d * 2 ^ 31) 100 24 hq
    have hl := round24_lower (d * 2 ^ 31) 100 24 (by norm_num) hq
    norm_num at hu hl ⊢
    omega
  · have hd : d = 13107200 := by omega
    subst hd
    decide

theorem f32Div_mono (a b steps : Nat) (h : a ≤ b) : f32Div a steps ≤ f32Div b steps :=
  round24_mono _ _ _ (Nat.mul_le_mul_right _ h)

/-- The binary32 product is within half a unit of the exact product, below
`2^24`. -/
theorem f32Mul_near (x i : Nat) (hi : i ≤ 100) (hx : x * i < 2 ^ 55) :
    f32Mul x i ≤ x * i + 2 ^ 30 ∧ x * i ≤ f32Mul x i + 2 ^ 30 := by
  have hii : f32OfNat i = i := f32OfNat_exact i (by norm_num; omega)
  unfold f32Mul
  rw [hii]
  have hq : x * i / 1 < 2 ^ 24 * 2 ^ 31 := by
    rw [Nat.div_one]
    norm_num at hx ⊢
    exact hx
  have hu := round24_upper (x * i) 1 31 hq
  have hl := round24_lower (x * i) 1 31 (by norm_num) hq
  norm_num at hu hl ⊢
  omega

theorem rampProduct_lt (d i : Nat) (h1 : 1 ≤ d) (h2 : d ≤ 13107200) (hi : i ≤ 100) :
    f32Div d 100 * i < 2 ^ 55 := by
  have hn := (f32Div_hundred_near d h1 h2).1
  have hle : f32Div d 100 * i ≤ f32Div d 100 * 100 := Nat.mul_le_mul_left _ hi
  norm_num at hn ⊢
  omega

/-- The increment of ramp step `i` in binary32 is within 1 of the exact
`floor(d * i / 100)`. -/
theorem rampStep_near (d i : Nat) (h1 : 1 ≤ d) (h2 : d ≤ 13107200) (hi : i ≤ 100) :
    d * i / 100 ≤ f32ToU32 (f32Mul (f32Div (f32OfNat d) 100) i) + 1 ∧
    f32ToU32 (f32Mul (f32Div (f32OfNat d) 100) i) ≤ d * i / 100 + 1 := by
  have hle := rampStep_le d i h1 h2 hi
  have hd24 : d < 2 ^ 24 := by norm_num; omega
  rw [f32OfNat_exact d hd24] at hle ⊢
  have hn := f32Div_hundred_near d h1 h2
  have hm := f32Mul_near (f32Div d 100) i hi (rampProduct_lt d i h1 h2 hi)
  have ha := Nat.mul_le_mul_right i hn.1
  have hb := Nat.mul_le_mul_right i hn.2
  have e1 : 100 * f32Div d 100 * i = 100 * (f32Div d 100 * i) := by ring
  have e2 : (d * 2 ^ 31 + 100 * 2 ^ 23) * i = 2 ^ 31 * (d * i) + 100 * 2 ^ 23 * i := by ring
  have e3 : d * 2 ^ 31 * i = 2 ^ 31 * (d * i) := by ring
  have e4 : (100 * f32Div d 100 + 100 * 2 ^ 23) * i =
      100 * (f32Div d 100 * i) + 100 * 2 ^ 23 * i := by ring
  rw [e1, e2] at ha
  rw [e3, e4] at hb
  unfold f32ToU32 f32Frac at hle ⊢
  rw [Nat.min_def] at hle ⊢
  norm_num at ha hb hm hle ⊢
  split_ifs at hle ⊢ <;> omega


/-! ## The ramp arithmetic: size of one step -/

theorem rampStep_zero (d steps : Nat) :
    f32ToU32 (f32Mul (f32Div (f32OfNat d) steps) 0) = 0 := by
  have h0 : f32OfNat 0 = 0 := f32OfNat_exact 0 (by norm_num)
  unfold f32Mul
  rw [h0, Nat.mul_zero]
  decide

/-- From an increase of 100 on, each ramp step raises the duty. -/
theorem rampStep_strict (d i : Nat) (h1 : 100 ≤ d) (h2 : d ≤ 13107200) (hi : i < 100) :
    f32ToU32 (f32Mul (f32Div (f32OfNat d) 100) i) <
      f32ToU32 (f32Mul (f32Div (f32OfNat d) 100) (i + 1)) := by
  have hd24 : d < 2 ^ 24 := by norm_num; omega
  have hle := rampStep_le d i (by omega) h2 (by omega)
  have hle' := rampStep_le d (i + 1) (by omega) h2 (by omega)
  rw [f32OfNat_exact d hd24] at hle hle' ⊢
  have hii : f32OfNat i = i := f32OfNat_exact i (by norm_num; omega)
  have hii' : f32OfNat (i + 1) = i + 1 := f32OfNat_exact (i + 1) (by norm_num; omega)
  have hX100 : f32Div 100 100 = 2 ^ 31 := by decide
  have hXlow : 2 ^ 31 ≤ f32Div d 100 := by
    rw [← hX100]
    exact f32Div_mono 100 d 100 h1
  -- the product of step `i + 1` reaches the next whole number
  have key : (f32Mul (f32Div d 100) i / 2 ^ 31 + 1) * 2 ^ 31 ≤ f32Div d 100 * (i + 1) := by
    rcases Nat.eq_or_lt_of_le h1 with h100 | h101
    · subst h100
      rw [hX100]
      unfold f32Mul
      rw [hii, Nat.mul_comm (2 ^ 31) i, round24_exact i 31 (by norm_num; omega),
        Nat.mul_div_cancel _ (by positivity)]
      exact le_of_eq (by ring)
    · have hX101 : f32Div 101 100 = 2168958464 := by decide
      have hX : 2168958464 ≤ f32Div d 100 := by
        rw [← hX101]
        exact f32Div_mono 101 d 100 h101
      rcases Nat.eq_zero_or_pos i with hi0 | hipos
      · subst hi0
        have hz : f32Mul (f32Div d 100) 0 = 0 := by
          unfold f32Mul
          rw [hii, Nat.mul_zero]
          decide
        rw [hz]
        norm_num
        omega
      · have ha23 : 2 ^ 23 ≤ f32Div d 100 * i := by
          have : f32Div d 100 * 1 ≤ f32Div d 100 * i := Nat.mul_le_mul_left _ hipos
          norm_num at hXlow this ⊢
          omega
        have hrel := round24_upper_rel (f32Div d 100 * i) ha23
        have ha99 : f32Div d 100 * i ≤ f32Div d 100 * 99 := Nat.mul_le_mul_left _ (by omega)
        have hfl := Nat.div_mul_le_self (f32Mul (f32Div d 100) i) (2 ^ 31)
        unfold f32Mul at hfl ⊢
        rw [hii] at hfl ⊢
        rw [Nat.mul_add, Nat.mul_one, Nat.add_mul, Nat.one_mul]
        norm_num at hrel hfl ⊢
        omega
  have hn24 : f32Mul (f32Div d 100) i / 2 ^ 31 + 1 < 2 ^ 24 := by
    unfold f32ToU32 f32Frac at hle
    rw [Nat.min_def] at hle
    norm_num at hle ⊢
    split_ifs at hle <;> omega
  have hmono := round24_mono _ _ 1 key
  rw [round24_exact _ 31 hn24] at hmono
  have hstep : f32Mul (f32Div d 100) i / 2 ^ 31 + 1 ≤
      f32Mul (f32Div d 100) (i + 1) / 2 ^ 31 := by
    rw [Nat.le_div_iff_mul_le (by positivity)]
    unfold f32Mul at hmono ⊢
    rw [hii'] 
    exact hmono
  unfold f32ToU32 f32Frac at hle hle' ⊢
  rw [Nat.min_def] at hle hle' ⊢
  norm_num at hle hle' hstep ⊢
  split_ifs at hle hle' ⊢ <;> omega

/-- Below an increase of 100, each ramp step raises the duty by at most 1. -/
theorem rampStep_small (d i : Nat) (h1 : 1 ≤ d) (h2 : d < 100) (hi : i < 100) :
    f32ToU32 (f32Mul (f32Div (f32OfNat d) 100) (i + 1)) ≤
      f32ToU32 (f32Mul (f32Div (f32OfNat d) 100) i) + 1 := by
  have hd24 : d < 2 ^ 24 := by norm_num; omega
  have hle := rampStep_le d i h1 (by omega) (by omega)
  rw [f32OfNat_exact d hd24] at hle ⊢
  have hii : f32OfNat i = i := f32OfNat_exact i (by norm_num; omega)
  have hii' : f32OfNat (i + 1) = i + 1 := f32OfNat_exact (i + 1) (by norm_num; omega)
  have hX99 : f32Div 99 100 = 2126008832 := by decide
  have hX : f32Div d 100 ≤ 2126008832 := by
    rw [← hX99]
    exact f32Div_mono d 99 100 (by omega)
  have ha : f32Div d 100 * i ≤ f32Div d 100 * 100 := Nat.mul_le_mul_left _ (by omega)
  have hq : f32Div d 100 * i / 1 < 2 ^ 24 * 2 ^ 14 := by
    rw [Nat.div_one]
    norm_num
    omega
  have hq' : f32Div d 100 * (i + 1) / 1 < 2 ^ 24 * 2 ^ 14 := by
    have : f32Div d 100 * (i + 1) ≤ f32Div d 100 * 100 := Nat.mul_le_mul_left _ (by omega)
    rw [Nat.div_one]
    norm_num
    omega
  have hl := round24_lower (f32Div d 100 * i) 1 14 (by norm_num) hq
  have hu := round24_upper (f32Div d 100 * (i + 1)) 1 14 hq'
  rw [Nat.mul_add, Nat.mul_one] at hu
  unfold f32ToU32 f32Frac f32Mul at hle ⊢
  rw [hii] at hle ⊢
  rw [hii', Nat.mul_add, Nat.mul_one]
  rw [Nat.min_def] at hle ⊢
  rw [Nat.min_def]
  norm_num at hl hu hle ⊢
  split_ifs at hle ⊢ <;> omega



/-! ## Ramp steps as a chain -/

theorem chain_map_range' (f : Nat → Nat) (R : Nat → Nat → Prop) (m k : Nat)
    (h : ∀ i, m ≤ i → i < m + k → R (f i) (f (i + 1))) :
    List.Chain R (f m) ((List.range' (m + 1) k).map f) := by
  induction k generalizing m with
  | zero => exact List.Chain.nil
  | succ k ih =>
    rw [List.range'_succ, List.map_cons]
    refine List.Chain.cons (h m (Nat.le_refl _) (by omega)) ?_
    exact ih (m + 1) (fun i h1 h2 => h i (by omega) (by omega))

theorem rampDuty_zero (s T steps : Nat) (hs : s < 2 ^ 32) : rampDuty s T steps 0 = s := by
  unfold rampDuty
  simp only
  rw [rampStep_zero, Nat.add_zero, Nat.mod_eq_of_lt hs]

/-- The duties of the ramp steps, as a chain from the starting duty. -/
theorem rampDuties_chain (R : Nat → Nat → Prop) (s T : Nat) (hs : s < 2 ^ 32)
    (h : ∀ i, i < 100 → R (rampDuty s T 100 i) (rampDuty s T 100 (i + 1))) :
    List.Chain R s (rampDuties s T 100) := by
  have := chain_map_range' (rampDuty s T 100) R 0 100 (fun i _ h2 => h i (by omega))
  rw [rampDuty_zero s T 100 hs] at this
  exact this

theorem writesOf_of_chain_lt (cur : Nat) (l : List Nat) (h : List.Chain (· < ·) cur l) :
    writesOf cur l = l := by
  induction l generalizing cur with
  | nil => rfl
  | cons d rest ih =>
    rw [List.chain_cons] at h
    rw [writesOf_cons, if_neg (by omega), ih d h.2]

/-- When each duty passed is the one before or one more, the number of duties
written is the total increase. -/
theorem writesOf_length_of_chain_succ (cur : Nat) (l : List Nat)
    (h : List.Chain (fun a b => a ≤ b ∧ b ≤ a + 1) cur l) :
    (writesOf cur l).length + cur = (l.getLast?).getD cur := by
  induction l generalizing cur with
  | nil => simp [writesOf]
  | cons d rest ih =>
    rw [List.chain_cons] at h
    rw [writesOf_cons, getLast?_getD_cons]
    split
    · next hd => subst hd; exact ih d h.2
    · next hd =>
      have := ih d h.2
      rw [List.length_cons]
      omega

/-- The trace of the ramp loop: each step writes its duty when it differs from
the duty before it, and then suspends. -/
theorem rampLoop_trace (iv : Nat) (ds : List Nat) (s : PWM) :
    (rampLoop iv ds s).2 =
      (List.zip (s.current_pwm_duty :: ds) ds).flatMap (fun p =>
        (if p.2 = p.1 then [] else [Event.setDuty p.2]) ++ [Event.dwell_ms iv]) := by
  induction ds generalizing s with
  | nil => rfl
  | cons d rest ih =>
    rw [rampLoop_cons]
    simp only
    rw [ih, set_output_events, set_output_duty, List.zip_cons_cons, List.flatMap_cons]
    simp

/-- The trace of a ramp loop whose duties all increase: a duty write and a
suspension at each step. -/
theorem rampLoop_trace_of_chain_lt (iv : Nat) (ds : List Nat) (s : PWM)
    (h : List.Chain (· < ·) s.current_pwm_duty ds) :
    (rampLoop iv ds s).2 = ds.flatMap (fun d => [Event.setDuty d, Event.dwell_ms iv]) := by
  induction ds generalizing s with
  | nil => rfl
  | cons d rest ih =>
    rw [List.chain_cons] at h
    rw [rampLoop_cons]
    simp only
    rw [ih _ (by rw [set_output_duty]; exact h.2), set_output_events, if_neg (by omega),
      List.flatMap_cons]
    rfl



/-! ## The ramp from the starting duty to the target -/

theorem rampDuties_getLast (s T : Nat) :
    (rampDuties s T 100).getLast? = some (rampDuty s T 100 100) := by
  unfold rampDuties
  rw [List.getLast?_map, List.getLast?_range']
  rfl

/-- Each ramp duty is within 1 of the exact interpolation
`s + floor((T - s) * i / 100)`. -/
theorem rampDuty_near (s T i : Nat) (hs : s < T) (hd : T - s ≤ 13107200) (hT : T < 2 ^ 32)
    (hi : i ≤ 100) :
    rampDutyExact s T 100 i ≤ rampDuty s T 100 i + 1 ∧
    rampDuty s T 100 i ≤ rampDutyExact s T 100 i + 1 := by
  have h := rampStep_near (T - s) i (by omega) hd hi
  rw [rampDuty_eq s T i hs hd hT hi]
  unfold rampDutyExact
  omega

theorem rampDuty_last (s T : Nat) (hs : s < T) (hd : T - s ≤ 13107200) (hT : T < 2 ^ 32) :
    T ≤ rampDuty s T 100 100 + 1 ∧ rampDuty s T 100 100 ≤ T := by
  have h := (rampDuty_near s T 100 hs hd hT (Nat.le_refl _)).1
  have h2 := (rampDuty_bounds s T 100 hs hd hT (Nat.le_refl _)).2
  unfold rampDutyExact at h
  rw [Nat.mul_div_cancel _ (by norm_num)] at h
  omega

theorem rampDuties_chain_lt (s T : Nat) (hs : s < T) (h100 : 100 ≤ T - s)
    (hd : T - s ≤ 13107200) (hT : T < 2 ^ 32) :
    List.Chain (· < ·) s (rampDuties s T 100) := by
  apply rampDuties_chain _ s T (by omega)
  intro i hi
  rw [rampDuty_eq s T i hs hd hT (by omega), rampDuty_eq s T (i + 1) hs hd hT (by omega)]
  have := rampStep_strict (T - s) i h100 hd hi
  omega

theorem rampDuties_chain_succ (s T : Nat) (hs : s < T) (h100 : T - s < 100)
    (hT : T < 2 ^ 32) :
    List.Chain (fun a b => a ≤ b ∧ b ≤ a + 1) s (rampDuties s T 100) := by
  apply rampDuties_chain _ s T (by omega)
  intro i hi
  have hd : T - s ≤ 13107200 := by omega
  refine ⟨rampDuty_mono s T i (i + 1) hs hd hT (by omega) (by omega), ?_⟩
  rw [rampDuty_eq s T i hs hd hT (by omega), rampDuty_eq s T (i + 1) hs hd hT (by omega)]
  have := rampStep_small (T - s) i (by omega) h100 hi
  omega

/-- The duty writes of a call that ramps, outside the rate-adjusted `Ccw`
case: those of the ramp and, when the ramp ends below the target, the target. -/
theorem setState_ramp_dutyWrites_split (env : Env) (state : SpindleState) (speed : Nat)
    (s : PWM) (T : Nat) (hmap : env.mapSpeed state speed = T)
    (hst : state ≠ SpindleState.Disable)
    (hra : ¬(env.isRateAdjusted = true ∧ state = SpindleState.Ccw))
    (hgt : s.current_pwm_duty < T) :
    dutyWrites (setState env false state speed s).2 =
      dutyWrites (softStart state T s).2 ++
        (if rampDuty s.current_pwm_duty T 100 100 = T then [] else [T]) := by
  have hfin : finalDuty env state speed = T := by
    unfold finalDuty
    rw [if_neg hra, hmap]
  rw [setState_ramp_dutyWrites env state speed s hst (by rw [hmap]; exact hgt), hmap, hfin,
    writesOf_append, rampDuties_getLast, softStart_ramp_dutyWrites state T s hst hgt]
  congr 1
  simp only [Option.getD_some, writesOf_cons, writesOf]
  by_cases h : rampDuty s.current_pwm_duty T 100 100 = T
  · rw [if_pos h, if_pos h.symm]
  · rw [if_neg h, if_neg (fun e => h e.symm)]



/-! ## Claim on the ramp from duty 0 -/

/-- C3, amended: for a target duty `T` with `0 < T ≤ 13107200`, a `setState`
that is not aborted, with a state other than `Disable` and mapped target `T`,
started with `_current_pwm_duty = 0`, runs exactly 100 ramp steps between its
direction command and its final write; each step writes its duty to the
output line, when that duty differs from the one before, and then suspends
for 20.  The duty of step `i` is within 1 of the
interpolation `floor(T * i / 100)`, the duties never decrease and none exceeds
`T`; the last one is `T` or `T - 1`.  For `T ≥ 100` every step raises the
duty, so the ramp makes exactly 100 duty writes, each followed by its
suspension; for `T < 100` the duty rises by at most 1 per step and the ramp
makes as many duty writes as its last duty, `T` or `T - 1`.  The duties
written increase strictly.  Outside the rate-adjusted `Ccw` case the call
writes, after the ramp, the duty `T` when the ramp ended at `T - 1` and nothing
otherwise, so the duty written last in the call is `T`. -/
theorem setState_ramp_from_zero (env : Env) (state : SpindleState) (speed : Nat) (s : PWM)
    (T : Nat) (hmap : env.mapSpeed state speed = T) (hst : state ≠ SpindleState.Disable)
    (hs : s.current_pwm_duty = 0) (hT0 : 0 < T) (hT1 : T ≤ 13107200) :
    (suspends (setState env false state speed s).2 = List.replicate 100 20 ∧
      (rampDuties 0 T 100).length = 100 ∧
      rampDuties 0 T 100 = (List.range' 1 100).map (rampDuty 0 T 100) ∧
      (softStart state T s).2 =
        (List.zip (0 :: rampDuties 0 T 100) (rampDuties 0 T 100)).flatMap (fun p =>
          (if p.2 = p.1 then [] else [Event.setDuty p.2]) ++ [Event.dwell_ms 20]) ∧
      (setState env false state speed s).2 =
        (if !env.output_defined then [Event.log_config_error_not_defined] else []) ++
          [Event.set_direction (decide (state = SpindleState.Cw))] ++
          (softStart state T s).2 ++
          (set_output (finalDuty env state speed) (softStart state T s).1).2 ++
          [Event.set_enable true, Event.spindleDelay state speed]) ∧
    (∀ i, i ≤ 100 →
      T * i / 100 ≤ rampDuty 0 T 100 i + 1 ∧ rampDuty 0 T 100 i ≤ T * i / 100 + 1 ∧
      rampDuty 0 T 100 i ≤ T) ∧
    (List.Pairwise (· ≤ ·) (rampDuties 0 T 100) ∧
      (rampDuties 0 T 100).getLast? = some (rampDuty 0 T 100 100) ∧
      T ≤ rampDuty 0 T 100 100 + 1) ∧
    (100 ≤ T →
      List.Chain (· < ·) 0 (rampDuties 0 T 100) ∧
      (softStart state T s).2 =
        (rampDuties 0 T 100).flatMap (fun d => [Event.setDuty d, Event.dwell_ms 20]) ∧
      dutyWrites (softStart state T s).2 = rampDuties 0 T 100 ∧
      (dutyWrites (softStart state T s).2).length = 100) ∧
    (T < 100 →
      List.Chain (fun a b => a ≤ b ∧ b ≤ a + 1) 0 (rampDuties 0 T 100) ∧
      (dutyWrites (softStart state T s).2).length = rampDuty 0 T 100 100) ∧
    (dutyWrites (softStart state T s).2 = writesOf 0 (rampDuties 0 T 100) ∧
      (dutyWrites (softStart state T s).2).length ≤ 100 ∧
      List.Pairwise (· < ·) (dutyWrites (softStart state T s).2) ∧
      (∀ w ∈ dutyWrites (softStart state T s).2, 0 < w ∧ w ≤ T)) ∧
    (¬(env.isRateAdjusted = true ∧ state = SpindleState.Ccw) →
      dutyWrites (setState env false state speed s).2 =
        dutyWrites (softStart state T s).2 ++
          (if rampDuty 0 T 100 100 = T then [] else [T]) ∧
      lastDutyWrite (setState env false state speed s).2 = some T ∧
      (dutyWrites (setState env false state speed s).2).length ≤ 101 ∧
      List.Pairwise (· < ·) (dutyWrites (setState env false state speed s).2)) := by
  have hgt : s.current_pwm_duty < T := by omega
  have hT : T < 2 ^ 32 := by norm_num; omega
  have hd : T - 0 ≤ 13107200 := by omega
  have hsorted := rampDuties_sorted 0 T hT0 hT1 hT
  have hb := rampDuties_bounds 0 T hT0 hT1 hT
  have hw := softStart_ramp_dutyWrites state T s hst hgt
  rw [hs] at hw
  have hws := writesOf_sorted 0 (rampDuties 0 T 100) (fun x _ => Nat.zero_le x) hsorted
  have htr : (softStart state T s).2 = (rampLoop 20 (rampDuties 0 T 100) s).2 := by
    rw [softStart_eq, if_pos ⟨hst, hgt⟩, hs]
  refine ⟨⟨?_, rampDuties_length 0 T 100, rfl, ?_, ?_⟩, ?_, ⟨hsorted, rampDuties_getLast 0 T,
    (rampDuty_last 0 T hT0 hd hT).1⟩, ?_, ?_, ⟨hw, ?_, ?_, ?_⟩, ?_⟩
  · rw [setState_suspends, hmap, softStart_ramp_suspends state T s hst hgt]
  · rw [htr, rampLoop_trace, hs]
  · rw [setState_eq, hmap]
    simp [hst]
  · intro i hi
    have hn := rampDuty_near 0 T i hT0 hd hT hi
    unfold rampDutyExact at hn
    simp only [Nat.sub_zero, Nat.zero_add] at hn
    exact ⟨hn.1, hn.2, (rampDuty_bounds 0 T i hT0 hd hT hi).2⟩
  · intro h100
    have hch := rampDuties_chain_lt 0 T hT0 (by omega) hd hT
    have hwe : dutyWrites (softStart state T s).2 = rampDuties 0 T 100 := by
      rw [hw, writesOf_of_chain_lt 0 _ hch]
    refine ⟨hch, ?_, hwe, ?_⟩
    · rw [htr, rampLoop_trace_of_chain_lt 20 _ s (by rw [hs]; exact hch)]
    · rw [hwe, rampDuties_length]
  · intro h100
    have hch := rampDuties_chain_succ 0 T hT0 (by omega) hT
    refine ⟨hch, ?_⟩
    have := writesOf_length_of_chain_succ 0 _ hch
    rw [rampDuties_getLast] at this
    rw [hw]
    simpa using this
  · rw [hw]
    exact le_trans (writesOf_length _ _) (le_of_eq (rampDuties_length 0 T 100))
  · rw [hw]; exact hws.1
  · rw [hw]
    intro w hw2
    exact ⟨(hws.2 w hw2).1, (hb w (hws.2 w hw2).2).2⟩
  · intro hra
    have h := setState_ramp_writes env state speed s T hmap hst hra hgt (by omega) hT
    have hsp := setState_ramp_dutyWrites_split env state speed s T hmap hst hra hgt
    rw [hs] at hsp
    refine ⟨hsp, h.2.2.2.2.2, ?_, h.2.2.2.1⟩
    rw [h.1]
    refine le_trans (writesOf_length _ _) ?_
    simp [rampDuties_length]

/-- Witness of C3: `setState(Cw, 10000)` from duty 0 with target duty 10000
makes exactly 100 duty writes in its ramp, the last being 10000. -/
theorem setState_ramp_from_zero_witness :
    ((directEnv false).mapSpeed SpindleState.Cw 10000 = 10000 ∧
      SpindleState.Cw ≠ SpindleState.Disable ∧ (stoppedAt 0).current_pwm_duty = 0 ∧
      0 < 10000 ∧ 10000 ≤ 13107200) ∧
    suspends (setState (directEnv false) false SpindleState.Cw 10000 (stoppedAt 0)).2 =
      List.replicate 100 20 ∧
    (dutyWrites (softStart SpindleState.Cw 10000 (stoppedAt 0)).2).length = 100 ∧
    lastDutyWrite (setState (directEnv false) false SpindleState.Cw 10000 (stoppedAt 0)).2 =
      some 10000 :=
  ⟨by decide,
   (setState_ramp_from_zero (directEnv false) SpindleState.Cw 10000 (stoppedAt 0) 10000
      (by decide) (by decide) (by decide) (by decide) (by decide)).1.1,
   ((setState_ramp_from_zero (directEnv false) SpindleState.Cw 10000 (stoppedAt 0) 10000
      (by decide) (by decide) (by decide) (by decide) (by decide)).2.2.2.1 (by decide)).2.2.2,
   ((setState_ramp_from_zero (directEnv false) SpindleState.Cw 10000 (stoppedAt 0) 10000
      (by decide) (by decide) (by decide) (by decide) (by decide)).2.2.2.2.2.2
      (by decide)).2.1⟩



/-! ## The ramp in exact arithmetic -/

theorem setStateWith_rampDuties (env : Env) (abort : Bool) (state : SpindleState) (speed : Nat)
    (s : PWM) : setStateWith rampDuties env abort state speed s = setState env abort state speed s :=
  rfl

end Spindles
